import Mathlib

/-!
Verification of the distributed Sobel stencil engine
(`phase II/src/sobel_mpi.cpp`, reference sequential kernel in
`Phase1/edge_detiction.cpp`).

The C++ code is shallowly embedded: machine `int` arithmetic is modelled
with `ℕ`/`ℤ` (all values reachable in the claims stay far below 2^31, so
no wrap-around occurs), images and tiles are total functions `ℕ → ℕ → ℤ`,
and the MPI message exchanges are modelled functionally (each receive is
replaced by the value the uniquely matching send provides, exactly as the
tag/peer discipline of the code pairs them).  `(int)std::sqrt(x)` on a
nonnegative integer `x` of the magnitudes reachable here (≤ 2·(4·255)²)
truncates the exactly-rounded double square root, which coincides with
`Nat.sqrt`; likewise `(int)sqrt(world_size)` in `setup_domain` is
`Nat.sqrt`.
-/

namespace SobelMPI

/-! ### Geometry Resolver (`setup_domain`)

```
int grid_dim = (int)sqrt(world_size);
while (world_size % grid_dim != 0) grid_dim--;
config.grid_rows = grid_dim;
config.grid_cols = world_size / grid_dim;
config.my_row = rank / config.grid_cols;
config.my_col = rank % config.grid_cols;
config.local_rows = image_size / config.grid_rows;
config.local_cols = image_size / config.grid_cols;
if (config.my_row == config.grid_rows - 1)
    config.local_rows = image_size - (config.grid_rows - 1) * config.local_rows;
if (config.my_col == config.grid_cols - 1)
    config.local_cols = image_size - (config.grid_cols - 1) * config.local_cols;
```
-/

/-- Kernel-computable floor square root (structural recursion on a fuel
argument), used to embed `(int)sqrt(...)`; proved equal to `Nat.sqrt`
below. -/
def intSqrtAux (n : ℕ) : ℕ → ℕ → ℕ
  | 0, k => k
  | f + 1, k => if (k + 1) * (k + 1) ≤ n then intSqrtAux n f (k + 1) else k

/-- Floor square root of a nonnegative integer: the value of
`(int)std::sqrt((double)n)` for the magnitudes reachable in this
program. -/
def intSqrt (n : ℕ) : ℕ := intSqrtAux n n 0

theorem intSqrtAux_eq (n : ℕ) :
    ∀ f k, k ≤ Nat.sqrt n → intSqrtAux n f k = min (Nat.sqrt n) (k + f) := by
  intro f
  induction f with
  | zero => intro k hk; simp [intSqrtAux, Nat.min_eq_right hk]
  | succ f ih =>
    intro k hk
    rw [intSqrtAux]
    rcases le_or_lt ((k + 1) * (k + 1)) n with h | h
    · rw [if_pos h, ih (k + 1) (Nat.le_sqrt.mpr h)]
      omega
    · have hs : Nat.sqrt n < k + 1 := Nat.sqrt_lt.mpr h
      rw [if_neg (by omega)]
      omega

theorem intSqrt_eq (n : ℕ) : intSqrt n = Nat.sqrt n := by
  rw [intSqrt, intSqrtAux_eq n n 0 (Nat.zero_le _)]
  exact Nat.min_eq_left (by simpa using Nat.sqrt_le_self n)

/-- The decrementing divisor search of `setup_domain`, as structural
recursion on the starting value `d`: `divSearch p d` is the first
`d' ≤ d` (counting down) with `p % d' = 0`. -/
def divSearch (p : ℕ) : ℕ → ℕ
  | 0 => 0
  | d + 1 => if p % (d + 1) = 0 then d + 1 else divSearch p d

/-- `config.grid_rows`. -/
def gridRows (p : ℕ) : ℕ := divSearch p (intSqrt p)

/-- `config.grid_cols`. -/
def gridCols (p : ℕ) : ℕ := p / gridRows p

/-- `config.my_row`. -/
def myRow (p r : ℕ) : ℕ := r / gridCols p

/-- `config.my_col`. -/
def myCol (p r : ℕ) : ℕ := r % gridCols p

/-- Base tile height `image_size / grid_rows`. -/
def baseRows (p N : ℕ) : ℕ := N / gridRows p

/-- Base tile width `image_size / grid_cols`. -/
def baseCols (p N : ℕ) : ℕ := N / gridCols p

/-- Tile height of the workers in grid row `a` (the last grid row absorbs
the remainder). -/
def rowSize (p N a : ℕ) : ℕ :=
  if a = gridRows p - 1 then N - (gridRows p - 1) * baseRows p N else baseRows p N

/-- Tile width of the workers in grid column `b`. -/
def colSize (p N b : ℕ) : ℕ :=
  if b = gridCols p - 1 then N - (gridCols p - 1) * baseCols p N else baseCols p N

/-- `config.local_rows` of rank `r`. -/
def localRows (p N r : ℕ) : ℕ := rowSize p N (myRow p r)

/-- `config.local_cols` of rank `r`. -/
def localCols (p N r : ℕ) : ℕ := colSize p N (myCol p r)

/-! ### Coordinator-side sub-regions (`scatter_image` / `gather_image`)

Both loops recompute, for each destination rank `r`:
```
int dst_row = r / config.grid_cols;
int dst_col = r % config.grid_cols;
int start_row = dst_row * (N / config.grid_rows);
int start_col = dst_col * (N / config.grid_cols);
int rows = (dst_row == config.grid_rows - 1) ? (N - start_row) : (N / config.grid_rows);
int cols = (dst_col == config.grid_cols - 1) ? (N - start_col) : (N / config.grid_cols);
```
-/

/-- `start_row` computed at the coordinator for rank `r`. -/
def startRow (p N r : ℕ) : ℕ := (r / gridCols p) * baseRows p N

/-- `start_col` computed at the coordinator for rank `r`. -/
def startCol (p N r : ℕ) : ℕ := (r % gridCols p) * baseCols p N

/-- `rows` computed at the coordinator for rank `r`. -/
def regRows (p N r : ℕ) : ℕ :=
  if r / gridCols p = gridRows p - 1 then N - startRow p N r else baseRows p N

/-- `cols` computed at the coordinator for rank `r`. -/
def regCols (p N r : ℕ) : ℕ :=
  if r % gridCols p = gridCols p - 1 then N - startCol p N r else baseCols p N

/-! ### Images and tiles

A `GlobalImage` and a padded worker `Tile` are both modelled as total
functions `ℕ → ℕ → ℤ`; a tile of rank `r` is meaningful on the index
ranges `0 .. localRows+1` × `0 .. localCols+1` (halo width
`h = halo_size = 1`). -/

/-- Images / tiles as total integer grids. -/
def Img : Type := ℕ → ℕ → ℤ

/-- The all-zero grid: both `local_img` and `output_img` are allocated
zero-initialized (`vector<int>(..., 0)`). -/
def zeroImg : Img := fun _ _ => 0

/-- `scatter_image` at rank `r`: the coordinator sends, row by row, the
rectangle of `g` starting at `(start_row, start_col)`; the worker writes
the `i`-th received row of `local_cols` elements at tile row `i + h`,
columns `h .. h + local_cols - 1`.  (The coordinator's self-copy uses the
same indices.)  All other tile cells are left as they were (`t`). -/
def scatterTile (p N : ℕ) (g : Img) (r : ℕ) (t : Img) : Img :=
  fun i j =>
    if 1 ≤ i ∧ i < localRows p N r + 1 ∧ 1 ≤ j ∧ j < localCols p N r + 1 then
      g (startRow p N r + (i - 1)) (startCol p N r + (j - 1))
    else t i j

/-- `exchange_halo_blocking`, functionally: every value received was sent
from the matching `MPI_Sendrecv` of the uniquely paired neighbor (peers
and tags pin down the pairing, see `Mirrors`/`prog` below), and every
value sent is an interior cell, which the exchange itself never writes —
so each worker's post-exchange tile reads the pre-exchange tiles `ts`:
* north halo row `0`, cols `1..cols` ← north neighbor's bottom interior
  row (`(rows_nb - 1 + h)`-th tile row);
* south halo row `rows + 1` ← south neighbor's top interior row;
* west halo col `0`, rows `1..rows` ← west neighbor's last interior col;
* east halo col `cols + 1` ← east neighbor's first interior col.
A direction whose neighbor is `MPI_PROC_NULL` (grid edge) is skipped,
and no branch ever writes the four halo corner cells. -/
def exchangeTiles (p N : ℕ) (ts : ℕ → Img) (r : ℕ) : Img :=
  fun i j =>
    if i = 0 ∧ 1 ≤ j ∧ j < localCols p N r + 1 ∧ 0 < myRow p r then
      ts (r - gridCols p) (localRows p N (r - gridCols p)) j
    else if i = localRows p N r + 1 ∧ 1 ≤ j ∧ j < localCols p N r + 1 ∧
        myRow p r < gridRows p - 1 then
      ts (r + gridCols p) 1 j
    else if j = 0 ∧ 1 ≤ i ∧ i < localRows p N r + 1 ∧ 0 < myCol p r then
      ts (r - 1) i (localCols p N (r - 1))
    else if j = localCols p N r + 1 ∧ 1 ≤ i ∧ i < localRows p N r + 1 ∧
        myCol p r < gridCols p - 1 then
      ts (r + 1) i 1
    else ts r i j

/-! ### Stencil kernel (`compute_sobel_local`) -/

/-- `int clamp255(int v) { return v < 0 ? 0 : (v > 255 ? 255 : v); }` -/
def clamp255 (v : ℤ) : ℤ := if v < 0 then 0 else if v > 255 then 255 else v

/-- `int gx[3][3] = {{-1, 0, 1}, {-2, 0, 2}, {-1, 0, 1}};` -/
def gxKer : ℕ → ℕ → ℤ
  | 0, 0 => -1 | 0, 1 => 0 | 0, 2 => 1
  | 1, 0 => -2 | 1, 1 => 0 | 1, 2 => 2
  | 2, 0 => -1 | 2, 1 => 0 | 2, 2 => 1
  | _, _ => 0

/-- `int gy[3][3] = {{-1, -2, -1}, {0, 0, 0}, {1, 2, 1}};` -/
def gyKer : ℕ → ℕ → ℤ
  | 0, 0 => -1 | 0, 1 => -2 | 0, 2 => -1
  | 1, 0 => 0 | 1, 1 => 0 | 1, 2 => 0
  | 2, 0 => 1 | 2, 1 => 2 | 2, 2 => 1
  | _, _ => 0

/-- The kernel accumulation loop offsets `di, dj ∈ {-1,0,1}`, shifted by
`+1` so tile indices stay in `ℕ` (the loop body reads
`local_img[(i+di)*pitch + (j+dj)]` and `gx[di+1][dj+1]`). -/
def offs : List ℕ := [0, 1, 2]

/-- `gx_val` accumulated at tile cell `(i, j)` (`i, j ≥ 1`). -/
def gxVal (t : Img) (i j : ℕ) : ℤ :=
  offs.foldl (fun acc di =>
    offs.foldl (fun acc2 dj => acc2 + gxKer di dj * t (i - 1 + di) (j - 1 + dj)) acc) 0

/-- `gy_val` accumulated at tile cell `(i, j)`. -/
def gyVal (t : Img) (i j : ℕ) : ℤ :=
  offs.foldl (fun acc di =>
    offs.foldl (fun acc2 dj => acc2 + gyKer di dj * t (i - 1 + di) (j - 1 + dj)) acc) 0

/-- `int mag = (int)sqrt(gx_val * gx_val + gy_val * gy_val);
    output = clamp255(mag);` at one tile cell. -/
def sobelCell (t : Img) (i j : ℕ) : ℤ :=
  clamp255 (intSqrt (gxVal t i j * gxVal t i j + gyVal t i j * gyVal t i j).toNat)

/-- `compute_sobel_local`: the unpadded `OutputTile`, cell `(i, j)`
(`i < local_rows`, `j < local_cols`) holds the stencil value of tile cell
`(i + h, j + h)`; outside that range `output_img` keeps its zero
initialization. -/
def computeSobelLocal (p N r : ℕ) (t : Img) : Img :=
  fun i j =>
    if i < localRows p N r ∧ j < localCols p N r then sobelCell t (i + 1) (j + 1)
    else 0

/-! ### Collector (`gather_image`) -/

/-- The coordinator-side sub-region of rank `r`, as recomputed by both
`scatter_image` and `gather_image`: global cells `(i, j)` with
`start_row ≤ i < start_row + rows` and `start_col ≤ j < start_col + cols`. -/
def InRegion (p N r i j : ℕ) : Prop :=
  startRow p N r ≤ i ∧ i < startRow p N r + regRows p N r ∧
    startCol p N r ≤ j ∧ j < startCol p N r + regCols p N r

instance (p N r i j : ℕ) : Decidable (InRegion p N r i j) :=
  inferInstanceAs (Decidable (_ ∧ _ ∧ _ ∧ _))

/-- One block write of `gather_image` at the coordinator: the rows of
rank `r`'s output are placed at `global[(start_row + i) * N + start_col + j]`. -/
def writeBlock (p N r : ℕ) (o : Img) (acc : Img) : Img :=
  fun i j =>
    if InRegion p N r i j then o (i - startRow p N r) (j - startCol p N r)
    else acc i j

/-- `gather_image`: the coordinator writes every rank's block into the
global image, in rank order `r = 0 .. world_size - 1`. -/
def gatherImage (p N : ℕ) (os : ℕ → Img) (g0 : Img) : Img :=
  (List.range p).foldl (fun acc r => writeBlock p N r (os r) acc) g0

/-! ### Run harness (`main` loop body) -/

/-- One iteration of the harness loop: scatter into the (reused) tiles,
halo-exchange, compute, gather over the coordinator's global image.
State: `(global_img, per-rank local_img)`. -/
def stepRun (p N : ℕ) (st : Img × (ℕ → Img)) : Img × (ℕ → Img) :=
  let tiles := fun r => scatterTile p N st.1 r (st.2 r)
  let ex := fun r => exchangeTiles p N tiles r
  (gatherImage p N (fun r => computeSobelLocal p N r (ex r)) st.1, ex)

/-- The state after `k` iterations of the harness, starting from input
image `g` and zero-initialized tiles. -/
def runIters (p N : ℕ) (g : Img) : ℕ → Img × (ℕ → Img)
  | 0 => (g, fun _ => zeroImg)
  | k + 1 => stepRun p N (runIters p N g k)

/-- The gathered output of a single-iteration run (`num_runs = 1`),
as a function of worker count, image size and input image. -/
def distributedRun (p N : ℕ) (g : Img) : Img := (runIters p N g 1).1

/-- The test image of `main`: `global_img[i] = (i % 256)` in row-major
order. -/
def testImage (N : ℕ) : Img := fun i j => (((i * N + j) % 256 : ℕ) : ℤ)

/-- The rank sitting at grid position `(a, b)` under the row-major rank
ordering (`rank = my_row * grid_cols + my_col`). -/
def rk (p a b : ℕ) : ℕ := a * gridCols p + b

/-! ### Geometry lemmas -/

theorem divSearch_spec (p : ℕ) :
    ∀ d, 1 ≤ d →
      divSearch p d ∣ p ∧ 1 ≤ divSearch p d ∧ divSearch p d ≤ d ∧
        ∀ e, e ∣ p → 1 ≤ e → e ≤ d → e ≤ divSearch p d := by
  intro d
  induction d with
  | zero => omega
  | succ d ih =>
    intro _
    rw [divSearch]
    by_cases h : p % (d + 1) = 0
    · rw [if_pos h]
      exact ⟨Nat.dvd_of_mod_eq_zero h, by omega, le_refl _, fun e _ _ he => he⟩
    · rw [if_neg h]
      have hd : 1 ≤ d := by
        rcases Nat.eq_zero_or_pos d with h0 | h0
        · subst h0; simp [Nat.mod_one] at h
        · exact h0
      obtain ⟨hdvd, h1, hle, hmax⟩ := ih hd
      refine ⟨hdvd, h1, hle.trans (Nat.le_succ d), fun e hedvd he1 he2 => ?_⟩
      rcases Nat.lt_or_ge e (d + 1) with hlt | hge
      · exact hmax e hedvd he1 (by omega)
      · exfalso
        have : e = d + 1 := by omega
        subst this
        obtain ⟨c, hc⟩ := hedvd
        exact h (by rw [hc]; exact Nat.mul_mod_right _ _)

theorem gridRows_spec (p : ℕ) (hp : 1 ≤ p) :
    gridRows p ∣ p ∧ 1 ≤ gridRows p ∧ gridRows p ≤ Nat.sqrt p ∧
      ∀ e, e ∣ p → 1 ≤ e → e ≤ Nat.sqrt p → e ≤ gridRows p := by
  have hs : 1 ≤ Nat.sqrt p := Nat.sqrt_pos.mpr hp
  have := divSearch_spec p (Nat.sqrt p) hs
  rw [gridRows, intSqrt_eq]
  exact ⟨this.1, this.2.1, this.2.2.1, this.2.2.2⟩

theorem gridRows_dvd (p : ℕ) (hp : 1 ≤ p) : gridRows p ∣ p := (gridRows_spec p hp).1

theorem gridRows_pos (p : ℕ) (hp : 1 ≤ p) : 1 ≤ gridRows p := (gridRows_spec p hp).2.1

theorem grid_mul (p : ℕ) (hp : 1 ≤ p) : gridRows p * gridCols p = p :=
  Nat.mul_div_cancel' (gridRows_dvd p hp)

theorem gridCols_pos (p : ℕ) (hp : 1 ≤ p) : 1 ≤ gridCols p := by
  rcases Nat.eq_zero_or_pos (gridCols p) with h | h
  · have := grid_mul p hp; rw [h, Nat.mul_zero] at this; omega
  · exact h

theorem myRow_lt (p r : ℕ) (hp : 1 ≤ p) (hr : r < p) : myRow p r < gridRows p := by
  rw [myRow, Nat.div_lt_iff_lt_mul (gridCols_pos p hp)]
  rw [← grid_mul p hp] at hr
  omega

theorem myCol_lt (p r : ℕ) (hp : 1 ≤ p) : myCol p r < gridCols p :=
  Nat.mod_lt r (gridCols_pos p hp)

theorem rk_myRowCol (p r : ℕ) : rk p (myRow p r) (myCol p r) = r := by
  rw [rk, myRow, myCol, Nat.mul_comm]
  exact Nat.div_add_mod r (gridCols p)

theorem myRow_rk (p a b : ℕ) (hb : b < gridCols p) : myRow p (rk p a b) = a := by
  rw [myRow, rk, Nat.mul_comm a (gridCols p), Nat.mul_add_div (by omega),
    Nat.div_eq_of_lt hb, Nat.add_zero]

theorem myCol_rk (p a b : ℕ) (hb : b < gridCols p) : myCol p (rk p a b) = b := by
  rw [myCol, rk, Nat.mul_comm a (gridCols p), Nat.mul_add_mod, Nat.mod_eq_of_lt hb]

theorem rk_lt (p a b : ℕ) (hp : 1 ≤ p) (ha : a < gridRows p) (hb : b < gridCols p) :
    rk p a b < p := by
  have hmul := grid_mul p hp
  have : rk p a b < gridRows p * gridCols p := by
    rw [rk]
    calc a * gridCols p + b < a * gridCols p + gridCols p := by omega
      _ = (a + 1) * gridCols p := by ring
      _ ≤ gridRows p * gridCols p := Nat.mul_le_mul_right _ (by omega)
  omega

theorem localRows_rk (p N a b : ℕ) (hb : b < gridCols p) :
    localRows p N (rk p a b) = rowSize p N a := by
  rw [localRows, myRow_rk p a b hb]

theorem localCols_rk (p N a b : ℕ) (hb : b < gridCols p) :
    localCols p N (rk p a b) = colSize p N b := by
  rw [localCols, myCol_rk p a b hb]

theorem base_rows_bound (p N : ℕ) :
    (gridRows p - 1) * baseRows p N ≤ N := by
  calc (gridRows p - 1) * baseRows p N
      ≤ gridRows p * baseRows p N := Nat.mul_le_mul_right _ (by omega)
    _ = N / gridRows p * gridRows p := by rw [baseRows]; ring
    _ ≤ N := Nat.div_mul_le_self N (gridRows p)

theorem base_cols_bound (p N : ℕ) :
    (gridCols p - 1) * baseCols p N ≤ N := by
  calc (gridCols p - 1) * baseCols p N
      ≤ gridCols p * baseCols p N := Nat.mul_le_mul_right _ (by omega)
    _ = N / gridCols p * gridCols p := by rw [baseCols]; ring
    _ ≤ N := Nat.div_mul_le_self N (gridCols p)

theorem rowSize_sum (p N : ℕ) (hp : 1 ≤ p) :
    ∑ a ∈ Finset.range (gridRows p), rowSize p N a = N := by
  have hR : 1 ≤ gridRows p := gridRows_pos p hp
  obtain ⟨R, hR'⟩ : ∃ R, gridRows p = R + 1 := ⟨gridRows p - 1, by omega⟩
  have hbound : R * baseRows p N ≤ N := by
    have h := base_rows_bound p N
    have he : gridRows p - 1 = R := by omega
    rwa [he] at h
  rw [hR', Finset.sum_range_succ]
  have hlast : rowSize p N R = N - R * baseRows p N := by
    rw [rowSize, if_pos (by omega)]
    have he : gridRows p - 1 = R := by omega
    rw [he]
  have hrest : ∀ a ∈ Finset.range R, rowSize p N a = baseRows p N := by
    intro a ha
    rw [Finset.mem_range] at ha
    rw [rowSize, if_neg (by omega)]
  rw [Finset.sum_congr rfl hrest, Finset.sum_const, Finset.card_range, smul_eq_mul, hlast]
  omega

theorem colSize_sum (p N : ℕ) (hp : 1 ≤ p) :
    ∑ b ∈ Finset.range (gridCols p), colSize p N b = N := by
  have hC : 1 ≤ gridCols p := gridCols_pos p hp
  obtain ⟨C, hC'⟩ : ∃ C, gridCols p = C + 1 := ⟨gridCols p - 1, by omega⟩
  have hbound : C * baseCols p N ≤ N := by
    have h := base_cols_bound p N
    have he : gridCols p - 1 = C := by omega
    rwa [he] at h
  rw [hC', Finset.sum_range_succ]
  have hlast : colSize p N C = N - C * baseCols p N := by
    rw [colSize, if_pos (by omega)]
    have he : gridCols p - 1 = C := by omega
    rw [he]
  have hrest : ∀ b ∈ Finset.range C, colSize p N b = baseCols p N := by
    intro b hb
    rw [Finset.mem_range] at hb
    rw [colSize, if_neg (by omega)]
  rw [Finset.sum_congr rfl hrest, Finset.sum_const, Finset.card_range, smul_eq_mul, hlast]
  omega

/-! ### Sub-region lemmas (shared by the Distributor/Collector claims) -/

/-- Generic 1D remainder-absorbing partition, slot `a` of `R` with base
size `q`: `[a*q, a*q + size a)` where the last slot absorbs `N - (R-1)*q`. -/
theorem interval_disjoint (R q N a b : ℕ) (hab : a < b) (hb : b ≤ R - 1) :
    a * q + (if a = R - 1 then N - (R - 1) * q else q) ≤ b * q := by
  rw [if_neg (by omega)]
  calc a * q + q = (a + 1) * q := by ring
    _ ≤ b * q := Nat.mul_le_mul_right _ (by omega)

theorem interval_cover (R q N i : ℕ) (hR : 1 ≤ R) (hbound : (R - 1) * q ≤ N)
    (hi : i < N) :
    ∃ a, a < R ∧ a * q ≤ i ∧ i < a * q + (if a = R - 1 then N - (R - 1) * q else q) := by
  rcases Nat.eq_zero_or_pos q with h0 | h0
  · refine ⟨R - 1, by omega, ?_, ?_⟩
    · subst h0; simp
    · rw [if_pos rfl]
      subst h0
      simpa using hi
  · rcases lt_or_le (i / q) (R - 1) with hlt | hge
    · refine ⟨i / q, by omega, Nat.div_mul_le_self i q, ?_⟩
      rw [if_neg (by omega)]
      have hdm : q * (i / q) + i % q = i := Nat.div_add_mod i q
      have hcm : q * (i / q) = i / q * q := Nat.mul_comm _ _
      have hmod : i % q < q := Nat.mod_lt i h0
      omega
    · refine ⟨R - 1, by omega, ?_, ?_⟩
      · calc (R - 1) * q ≤ i / q * q := Nat.mul_le_mul_right _ hge
          _ ≤ i := Nat.div_mul_le_self i q
      · rw [if_pos rfl]
        omega

theorem regRows_eq (p N r : ℕ) : regRows p N r = localRows p N r := by
  rw [regRows, localRows, rowSize, myRow, startRow]
  by_cases h : r / gridCols p = gridRows p - 1
  · rw [if_pos h, if_pos h, h]
  · rw [if_neg h, if_neg h]

theorem regCols_eq (p N r : ℕ) : regCols p N r = localCols p N r := by
  rw [regCols, localCols, colSize, myCol, startCol]
  by_cases h : r % gridCols p = gridCols p - 1
  · rw [if_pos h, if_pos h, h]
  · rw [if_neg h, if_neg h]

theorem startRow_eq (p N r : ℕ) : startRow p N r = myRow p r * baseRows p N := rfl

theorem startCol_eq (p N r : ℕ) : startCol p N r = myCol p r * baseCols p N := rfl

theorem localRows_if (p N r : ℕ) :
    localRows p N r
      = if myRow p r = gridRows p - 1 then N - (gridRows p - 1) * baseRows p N
        else baseRows p N := rfl

theorem localCols_if (p N r : ℕ) :
    localCols p N r
      = if myCol p r = gridCols p - 1 then N - (gridCols p - 1) * baseCols p N
        else baseCols p N := rfl

/-- Two distinct ranks of the run have disjoint coordinator sub-regions. -/
theorem regions_disjoint (p N : ℕ) (hp : 1 ≤ p) (r r' : ℕ) (hr : r < p) (hr' : r' < p)
    (hne : r ≠ r') (i j : ℕ) (h : InRegion p N r i j) : ¬ InRegion p N r' i j := by
  intro h'
  obtain ⟨h1, h2, h3, h4⟩ := h
  obtain ⟨h1', h2', h3', h4'⟩ := h'
  rw [startRow_eq] at h1 h2 h1' h2'
  rw [startCol_eq] at h3 h4 h3' h4'
  rw [regRows_eq, localRows_if] at h2 h2'
  rw [regCols_eq, localCols_if] at h4 h4'
  have hrowlt := myRow_lt p r hp hr
  have hrowlt' := myRow_lt p r' hp hr'
  have hcollt := myCol_lt p r hp
  have hcollt' := myCol_lt p r' hp
  rcases Nat.lt_trichotomy (myRow p r) (myRow p r') with hR | hR | hR
  · have := interval_disjoint (gridRows p) (baseRows p N) N _ _ hR (by omega)
    omega
  · rcases Nat.lt_trichotomy (myCol p r) (myCol p r') with hc | hc | hc
    · have := interval_disjoint (gridCols p) (baseCols p N) N _ _ hc (by omega)
      omega
    · exact hne (by rw [← rk_myRowCol p r, ← rk_myRowCol p r', hR, hc])
    · have := interval_disjoint (gridCols p) (baseCols p N) N _ _ hc (by omega)
      omega
  · have := interval_disjoint (gridRows p) (baseRows p N) N _ _ hR (by omega)
    omega

/-- Every pixel of the `N × N` image lies in some rank's sub-region. -/
theorem regions_cover (p N : ℕ) (hp : 1 ≤ p) (i j : ℕ) (hi : i < N) (hj : j < N) :
    ∃ r, r < p ∧ InRegion p N r i j := by
  obtain ⟨a, ha, ha1, ha2⟩ :=
    interval_cover (gridRows p) (baseRows p N) N i (gridRows_pos p hp)
      (base_rows_bound p N) hi
  obtain ⟨b, hb, hb1, hb2⟩ :=
    interval_cover (gridCols p) (baseCols p N) N j (gridCols_pos p hp)
      (base_cols_bound p N) hj
  refine ⟨rk p a b, rk_lt p a b hp ha hb, ?_⟩
  have hrw : myRow p (rk p a b) = a := myRow_rk p a b hb
  have hcl : myCol p (rk p a b) = b := myCol_rk p a b hb
  refine ⟨?_, ?_, ?_, ?_⟩
  · rw [startRow_eq, hrw]; exact ha1
  · rw [startRow_eq, regRows_eq, localRows_if, hrw]; exact ha2
  · rw [startCol_eq, hcl]; exact hb1
  · rw [startCol_eq, regCols_eq, localCols_if, hcl]; exact hb2

/-! ### Gather fold lemmas -/

theorem gatherFold_not_covered (p N : ℕ) (os : ℕ → Img) (i j : ℕ) :
    ∀ (l : List ℕ) (g0 : Img), (∀ r ∈ l, ¬ InRegion p N r i j) →
      (l.foldl (fun acc r => writeBlock p N r (os r) acc) g0) i j = g0 i j := by
  intro l
  induction l with
  | nil => intro g0 _; rfl
  | cons r t ih =>
    intro g0 h
    rw [List.foldl_cons, ih _ (fun r' hr' => h r' (List.mem_cons_of_mem r hr'))]
    exact if_neg (h r (List.mem_cons_self r t))

theorem gatherFold_owner (p N : ℕ) (os : ℕ → Img) (i j : ℕ) :
    ∀ (l : List ℕ) (g0 : Img) (r₀ : ℕ), r₀ ∈ l → InRegion p N r₀ i j →
      (∀ r ∈ l, InRegion p N r i j → r = r₀) →
      (l.foldl (fun acc r => writeBlock p N r (os r) acc) g0) i j
        = os r₀ (i - startRow p N r₀) (j - startCol p N r₀) := by
  intro l
  induction l with
  | nil => intro g0 r₀ hmem; exact absurd hmem (List.not_mem_nil r₀)
  | cons r t ih =>
    intro g0 r₀ hmem hin huniq
    by_cases hmt : r₀ ∈ t
    · exact ih _ r₀ hmt hin (fun r' hr' => huniq r' (List.mem_cons_of_mem r hr'))
    · have hr : r = r₀ := ((List.mem_cons.mp hmem).resolve_right hmt).symm
      subst hr
      have hnone : ∀ r' ∈ t, ¬ InRegion p N r' i j := by
        intro r' hr' hin'
        exact hmt ((huniq r' (List.mem_cons_of_mem r hr') hin') ▸ hr')
      rw [List.foldl_cons, gatherFold_not_covered p N os i j t _ hnone]
      exact if_pos hin

theorem gatherImage_owner (p N : ℕ) (os : ℕ → Img) (g0 : Img) (i j r₀ : ℕ)
    (hr₀ : r₀ < p) (hin : InRegion p N r₀ i j)
    (huniq : ∀ r < p, InRegion p N r i j → r = r₀) :
    gatherImage p N os g0 i j = os r₀ (i - startRow p N r₀) (j - startCol p N r₀) := by
  rw [gatherImage]
  exact gatherFold_owner p N os i j (List.range p) g0 r₀ (List.mem_range.mpr hr₀) hin
    (fun r hr => huniq r (List.mem_range.mp hr))

theorem unique_owner (p N : ℕ) (hp : 1 ≤ p) (i j r₀ : ℕ) (hr₀ : r₀ < p)
    (hin : InRegion p N r₀ i j) : ∀ r < p, InRegion p N r i j → r = r₀ := by
  intro r hr hinr
  by_contra hne
  exact regions_disjoint p N hp r r₀ hr hr₀ hne i j hinr hin

/-- The interior of a padded tile, as an unpadded `local_rows × local_cols`
grid (cell `(i, j)` reads tile cell `(i + h, j + h)`, `h = 1`). -/
def tileInterior (t : Img) : Img := fun i j => t (i + 1) (j + 1)

/-! ### Claim theorems -/

/-- C3: for every worker count `p ≥ 1` and image size `N`, scattering the
global image into each worker's tile interior (the Distributor step) and
collecting with the identity kernel — each worker's output is its tile
interior — reproduces the original image exactly at the coordinator, at
every pixel and for any prior contents of the coordinator's buffer. -/
theorem identity_roundtrip_exact (p N : ℕ) (g g0 : Img) (hp : 1 ≤ p) :
    ∀ i < N, ∀ j < N,
      gatherImage p N (fun r => tileInterior (scatterTile p N g r zeroImg)) g0 i j
        = g i j := by
  intro i hi j hj
  obtain ⟨r₀, hr₀, hin⟩ := regions_cover p N hp i j hi hj
  rw [gatherImage_owner p N _ g0 i j r₀ hr₀ hin (unique_owner p N hp i j r₀ hr₀ hin)]
  obtain ⟨h1, h2, h3, h4⟩ := hin
  rw [regRows_eq] at h2
  rw [regCols_eq] at h4
  rw [tileInterior, scatterTile]
  rw [if_pos (by constructor <;> omega)]
  have hiw : startRow p N r₀ + (i - startRow p N r₀ + 1 - 1) = i := by omega
  have hjw : startCol p N r₀ + (j - startCol p N r₀ + 1 - 1) = j := by omega
  rw [hiw, hjw]

/-- Witness for C3 at `p = 4`, `N = 4` with the program's own test image. -/
theorem identity_roundtrip_exact_witness :
    1 ≤ 4 ∧
      gatherImage 4 4 (fun r => tileInterior (scatterTile 4 4 (testImage 4) r zeroImg))
        zeroImg 2 3 = testImage 4 2 3 :=
  ⟨by decide, identity_roundtrip_exact 4 4 (testImage 4) zeroImg (by decide)
    2 (by decide) 3 (by decide)⟩

/-- C4: for every worker count `p ≥ 1` and image size `N ≥ 3`, in the
resolved grid geometry the `local_rows` of the workers of any one grid
column sum to `N`, and the `local_cols` of the workers of any one grid
row sum to `N`: the partition loses and duplicates no pixel. -/
theorem partition_sums_complete (p N : ℕ) (hp : 1 ≤ p) (_hN : 3 ≤ N) :
    (∀ c < gridCols p, ∑ a ∈ Finset.range (gridRows p), localRows p N (rk p a c) = N) ∧
    (∀ a < gridRows p, ∑ b ∈ Finset.range (gridCols p), localCols p N (rk p a b) = N) := by
  constructor
  · intro c hc
    rw [Finset.sum_congr rfl (fun a _ => localRows_rk p N a c hc)]
    exact rowSize_sum p N hp
  · intro a _
    rw [Finset.sum_congr rfl
      (fun b hb => localCols_rk p N a b (Finset.mem_range.mp hb))]
    exact colSize_sum p N hp

/-- Witness for C4 at `p = 3`, `N = 10`. -/
theorem partition_sums_complete_witness :
    (1 ≤ 3 ∧ 3 ≤ 10) ∧
      ((∀ c < gridCols 3, ∑ a ∈ Finset.range (gridRows 3), localRows 3 10 (rk 3 a c) = 10) ∧
       (∀ a < gridRows 3, ∑ b ∈ Finset.range (gridCols 3), localCols 3 10 (rk 3 a b) = 10)) :=
  ⟨⟨by decide, by decide⟩, partition_sums_complete 3 10 (by decide) (by decide)⟩

/-- C5: for every worker count `p ≥ 1` the divisor search of the Geometry
Resolver (total by construction — it is structural recursion that stops at
`1` at the latest) yields `grid_rows` equal to the largest integer that
divides `p` and is at most `⌊√p⌋`, with `grid_cols = p / grid_rows` and
worker placement `(rank / grid_cols, rank mod grid_cols)`; in particular
`p = 6` resolves to `grid_rows = 2`, `grid_cols = 3`. -/
theorem grid_factorization_spec (p : ℕ) (hp : 1 ≤ p) :
    gridRows p ∣ p ∧ gridRows p ≤ Nat.sqrt p ∧
      (∀ d, d ∣ p → 1 ≤ d → d ≤ Nat.sqrt p → d ≤ gridRows p) ∧
      gridCols p = p / gridRows p ∧
      (∀ r, myRow p r = r / gridCols p ∧ myCol p r = r % gridCols p) ∧
      gridRows 6 = 2 ∧ gridCols 6 = 3 := by
  obtain ⟨h1, _, h3, h4⟩ := gridRows_spec p hp
  exact ⟨h1, h3, h4, rfl, fun r => ⟨rfl, rfl⟩, by decide, by decide⟩

/-- Witness for C5 at `p = 6`. -/
theorem grid_factorization_spec_witness :
    1 ≤ 6 ∧
      (gridRows 6 ∣ 6 ∧ gridRows 6 ≤ Nat.sqrt 6 ∧
        (∀ d, d ∣ 6 → 1 ≤ d → d ≤ Nat.sqrt 6 → d ≤ gridRows 6) ∧
        gridCols 6 = 6 / gridRows 6 ∧
        (∀ r, myRow 6 r = r / gridCols 6 ∧ myCol 6 r = r % gridCols 6) ∧
        gridRows 6 = 2 ∧ gridCols 6 = 3) :=
  ⟨by decide, grid_factorization_spec 6 (by decide)⟩

/-- C8: for every rank `r` of a run with `p ≥ 1` workers, the sub-region
the coordinator computes for `r` inside `scatter_image`/`gather_image`
agrees with the geometry `r` computes for itself in `setup_domain`
(`rows = local_rows`, `cols = local_cols`, offsets `my_row`/`my_col`
times the base tile sizes) — so each transmitted row's element count on
the sending side equals the count expected on the receiving side — and
the per-rank sub-regions are pairwise disjoint and cover the `N × N`
image. -/
theorem coordinator_worker_geometry_agree (p N : ℕ) (hp : 1 ≤ p) :
    (∀ r, regRows p N r = localRows p N r ∧ regCols p N r = localCols p N r ∧
        startRow p N r = myRow p r * baseRows p N ∧
        startCol p N r = myCol p r * baseCols p N) ∧
    (∀ r < p, ∀ r' < p, r ≠ r' → ∀ i j, InRegion p N r i j → ¬ InRegion p N r' i j) ∧
    (∀ i < N, ∀ j < N, ∃ r, r < p ∧ InRegion p N r i j) := by
  refine ⟨fun r => ⟨regRows_eq p N r, regCols_eq p N r, rfl, rfl⟩, ?_, ?_⟩
  · intro r hr r' hr' hne i j hin
    exact regions_disjoint p N hp r r' hr hr' hne i j hin
  · intro i hi j hj
    exact regions_cover p N hp i j hi hj

/-- Witness for C8 at `p = 6`, `N = 6`. -/
theorem coordinator_worker_geometry_agree_witness :
    1 ≤ 6 ∧
      ((∀ r, regRows 6 6 r = localRows 6 6 r ∧ regCols 6 6 r = localCols 6 6 r ∧
          startRow 6 6 r = myRow 6 r * baseRows 6 6 ∧
          startCol 6 6 r = myCol 6 r * baseCols 6 6) ∧
       (∀ r < 6, ∀ r' < 6, r ≠ r' → ∀ i j, InRegion 6 6 r i j → ¬ InRegion 6 6 r' i j) ∧
       (∀ i < 6, ∀ j < 6, ∃ r, r < 6 ∧ InRegion 6 6 r i j)) :=
  ⟨by decide, coordinator_worker_geometry_agree 6 6 (by decide)⟩

/-- C9: for `N = 10` and `p = 3` the Geometry Resolver produces a `1 × 3`
grid whose last grid column absorbs the remainder: the three workers'
`local_cols` are `3`, `3` and `4`, summing to `10`, and every worker's
`local_rows` is `10`. -/
theorem grid_10_3_geometry :
    gridRows 3 = 1 ∧ gridCols 3 = 3 ∧
      localCols 3 10 0 = 3 ∧ localCols 3 10 1 = 3 ∧ localCols 3 10 2 = 4 ∧
      localCols 3 10 0 + localCols 3 10 1 + localCols 3 10 2 = 10 ∧
      (∀ r < 3, localRows 3 10 r = 10) := by decide

/-! ### The stencil in closed form

`Phase1/edge_detiction.cpp` (`run_sobel_seq`) writes the two gradients as
explicit 8-neighbor sums; the MPI kernel accumulates the same values with
its kernel-array double loop.  The closed forms below are transcribed from
the Phase 1 source (centered at `(i, j)`, `i, j ≥ 1`). -/

/-- `Gx` of `run_sobel_seq`:
`-img[i-1][j-1] - 2*img[i][j-1] - img[i+1][j-1]
 + img[i-1][j+1] + 2*img[i][j+1] + img[i+1][j+1]`. -/
def seqGx (t : Img) (i j : ℕ) : ℤ :=
  -(t (i - 1) (j - 1)) - 2 * t i (j - 1) - t (i + 1) (j - 1)
    + t (i - 1) (j + 1) + 2 * t i (j + 1) + t (i + 1) (j + 1)

/-- `Gy` of `run_sobel_seq`:
`-img[i-1][j-1] - 2*img[i-1][j] - img[i-1][j+1]
 + img[i+1][j-1] + 2*img[i+1][j] + img[i+1][j+1]`. -/
def seqGy (t : Img) (i j : ℕ) : ℤ :=
  -(t (i - 1) (j - 1)) - 2 * t (i - 1) j - t (i - 1) (j + 1)
    + t (i + 1) (j - 1) + 2 * t (i + 1) j + t (i + 1) (j + 1)

theorem gxVal_eq_seqGx (t : Img) (i j : ℕ) (hi : 1 ≤ i) (hj : 1 ≤ j) :
    gxVal t i j = seqGx t i j := by
  have e1 : i - 1 + 1 = i := by omega
  have e2 : i - 1 + 2 = i + 1 := by omega
  have e3 : j - 1 + 1 = j := by omega
  have e4 : j - 1 + 2 = j + 1 := by omega
  simp only [gxVal, offs, List.foldl, gxKer, seqGx, e1, e2, e3, e4, Nat.add_zero]
  ring

theorem gyVal_eq_seqGy (t : Img) (i j : ℕ) (hi : 1 ≤ i) (hj : 1 ≤ j) :
    gyVal t i j = seqGy t i j := by
  have e1 : i - 1 + 1 = i := by omega
  have e2 : i - 1 + 2 = i + 1 := by omega
  have e3 : j - 1 + 1 = j := by omega
  have e4 : j - 1 + 2 = j + 1 := by omega
  simp only [gyVal, offs, List.foldl, gyKer, seqGy, e1, e2, e3, e4, Nat.add_zero]
  ring

/-- C2 (amended): for every interior cell of a tile, the kernel writes
into the corresponding OutputTile cell `clamp255` of the *floor* (not the
nearest integer) of `√(Gx² + Gy²)`, where `Gx`/`Gy` are the two fixed
3×3 Sobel convolutions of the cell's 8 neighbors — `m` below is
characterized as the floor square root by `m² ≤ Gx² + Gy² < (m+1)²`. -/
theorem sobel_cell_floor_sqrt (p N r : ℕ) (t : Img) (i j : ℕ)
    (hi : i < localRows p N r) (hj : j < localCols p N r) :
    ∃ m : ℕ, computeSobelLocal p N r t i j = clamp255 (m : ℤ) ∧
      (m : ℤ) * m ≤ seqGx t (i + 1) (j + 1) * seqGx t (i + 1) (j + 1)
          + seqGy t (i + 1) (j + 1) * seqGy t (i + 1) (j + 1) ∧
      seqGx t (i + 1) (j + 1) * seqGx t (i + 1) (j + 1)
          + seqGy t (i + 1) (j + 1) * seqGy t (i + 1) (j + 1)
        < ((m : ℤ) + 1) * ((m : ℤ) + 1) := by
  have hx : gxVal t (i + 1) (j + 1) = seqGx t (i + 1) (j + 1) :=
    gxVal_eq_seqGx t (i + 1) (j + 1) (by omega) (by omega)
  have hy : gyVal t (i + 1) (j + 1) = seqGy t (i + 1) (j + 1) :=
    gyVal_eq_seqGy t (i + 1) (j + 1) (by omega) (by omega)
  set X := seqGx t (i + 1) (j + 1) with hX
  set Y := seqGy t (i + 1) (j + 1) with hY
  have hnn : (0 : ℤ) ≤ X * X + Y * Y :=
    add_nonneg (mul_self_nonneg X) (mul_self_nonneg Y)
  refine ⟨intSqrt (X * X + Y * Y).toNat, ?_, ?_, ?_⟩
  · rw [computeSobelLocal, if_pos ⟨hi, hj⟩, sobelCell, hx, hy]
  · rw [intSqrt_eq]
    have h1 : Nat.sqrt (X * X + Y * Y).toNat * Nat.sqrt (X * X + Y * Y).toNat
        ≤ (X * X + Y * Y).toNat := Nat.sqrt_le _
    have h2 : ((((X * X + Y * Y).toNat : ℕ) : ℤ)) = X * X + Y * Y :=
      Int.toNat_of_nonneg hnn
    calc ((Nat.sqrt (X * X + Y * Y).toNat : ℤ)) * (Nat.sqrt (X * X + Y * Y).toNat : ℤ)
        = ((Nat.sqrt (X * X + Y * Y).toNat * Nat.sqrt (X * X + Y * Y).toNat : ℕ) : ℤ) := by
          push_cast; ring
      _ ≤ (((X * X + Y * Y).toNat : ℕ) : ℤ) := by exact_mod_cast h1
      _ = X * X + Y * Y := h2
  · rw [intSqrt_eq]
    have h1 : (X * X + Y * Y).toNat
        < (Nat.sqrt (X * X + Y * Y).toNat + 1) * (Nat.sqrt (X * X + Y * Y).toNat + 1) :=
      Nat.lt_succ_sqrt _
    have h2 : ((((X * X + Y * Y).toNat : ℕ) : ℤ)) = X * X + Y * Y :=
      Int.toNat_of_nonneg hnn
    calc X * X + Y * Y = (((X * X + Y * Y).toNat : ℕ) : ℤ) := h2.symm
      _ < (((Nat.sqrt (X * X + Y * Y).toNat + 1) * (Nat.sqrt (X * X + Y * Y).toNat + 1) : ℕ) : ℤ) := by
          exact_mod_cast h1
      _ = ((Nat.sqrt (X * X + Y * Y).toNat : ℤ) + 1) * ((Nat.sqrt (X * X + Y * Y).toNat : ℤ) + 1) := by
          push_cast; ring

/-- The concrete tile refuting the rounded-square-root reading of the
kernel: all zero except cells `(1,2)` and `(2,1)` set to `1`, giving
`Gx = Gy = 2` and `Gx² + Gy² = 8` at cell `(1,1)`. -/
def tRound : Img :=
  fun i j => if i = 1 ∧ j = 2 then 1 else if i = 2 ∧ j = 1 then 1 else 0

/-- Modelled from the spec: round-to-nearest of `√n`.  `round(√n)` is
`⌊√n⌋ + 1` exactly when `√n ≥ ⌊√n⌋ + 1/2`, i.e. when
`4n ≥ (2⌊√n⌋ + 1)²`; a tie is impossible because `4n` is even and the
square is odd. -/
def roundSqrt (n : ℕ) : ℕ :=
  if (2 * intSqrt n + 1) * (2 * intSqrt n + 1) ≤ 4 * n then intSqrt n + 1
  else intSqrt n

/-- Modelled from the spec: the per-cell value C2 claims,
`clamp(round(sqrt(Gx² + Gy²)), 0, 255)`. -/
def specKernelCell (t : Img) (i j : ℕ) : ℤ :=
  clamp255
    (roundSqrt (seqGx t i j * seqGx t i j + seqGy t i j * seqGy t i j).toNat)

/-- C2 (counterexample): at the interior cell `(1,1)` of the `1 × 1` tile
`tRound`, the kernel writes `⌊√8⌋ = 2` into the OutputTile while the
claimed `clamp(round(sqrt(Gx² + Gy²)), 0, 255)` is `round(√8) = 3`. -/
theorem sobel_round_counterexample :
    computeSobelLocal 1 1 0 tRound 0 0 = 2 ∧ specKernelCell tRound 1 1 = 3 ∧
      computeSobelLocal 1 1 0 tRound 0 0 ≠ specKernelCell tRound 1 1 := by decide

/-- Witness for the amended C2 at the same concrete tile. -/
theorem sobel_cell_floor_sqrt_witness :
    (0 < localRows 1 1 0 ∧ 0 < localCols 1 1 0) ∧
      (∃ m : ℕ, computeSobelLocal 1 1 0 tRound 0 0 = clamp255 (m : ℤ) ∧
        (m : ℤ) * m ≤ seqGx tRound 1 1 * seqGx tRound 1 1
            + seqGy tRound 1 1 * seqGy tRound 1 1 ∧
        seqGx tRound 1 1 * seqGx tRound 1 1 + seqGy tRound 1 1 * seqGy tRound 1 1
          < ((m : ℤ) + 1) * ((m : ℤ) + 1)) :=
  ⟨⟨by decide, by decide⟩,
    sobel_cell_floor_sqrt 1 1 0 tRound 0 0 (by decide) (by decide)⟩

/-! ### Run-harness statistics report (`main`, after the iteration loop)

```
double total_time = 0;  double total_comm_time = 0;
for (...) { ... total_comm_time += (comm_end - comm_start); ... total_time += (end - start); }
if (rank == 0) {
    double avg_time = (total_time / num_runs) * 1000.0;
    cout << "RANKS=" << world_size << " SIZE=" << N << " RUNS=" << num_runs
         << " AVG_TIME=" << fixed << setprecision(3) << avg_time << " ms\n";
}
```
The per-iteration wall-clock times and exchange-step times are abstracted
as exact rationals; the report is the ordered list of `key=value` tokens
the coordinator prints. -/

/-- The coordinator's statistics report.  `total_comm_time` is
accumulated exactly as in `main` but, as in `main`, contributes nothing
to the output. -/
def harnessReport (p N runs : ℕ) (times commTimes : List ℚ) : List (String × ℚ) :=
  let _totalComm : ℚ := commTimes.foldl (fun a b => a + b) 0
  [("RANKS", (p : ℚ)), ("SIZE", (N : ℚ)), ("RUNS", (runs : ℚ)),
    ("AVG_TIME", times.foldl (fun a b => a + b) 0 / (runs : ℚ) * 1000)]

/-- Minimum of a sample list. -/
def listMin : List ℚ → ℚ
  | [] => 0
  | x :: xs => xs.foldl min x

/-- Maximum of a sample list. -/
def listMax : List ℚ → ℚ
  | [] => 0
  | x :: xs => xs.foldl max x

/-- C6 as claimed: the coordinator's report carries the minimum, mean and
maximum per-iteration elapsed time and the mean exchange-step time — i.e.
all four statistics can be read off the printed report. -/
def ReportsFullStats : Prop :=
  ∃ fmin fmean fmax fex : List (String × ℚ) → ℚ,
    ∀ (p N runs : ℕ) (times commTimes : List ℚ),
      fmin (harnessReport p N runs times commTimes) = listMin times ∧
      fmean (harnessReport p N runs times commTimes)
        = times.foldl (fun a b => a + b) 0 / (runs : ℚ) ∧
      fmax (harnessReport p N runs times commTimes) = listMax times ∧
      fex (harnessReport p N runs times commTimes)
        = commTimes.foldl (fun a b => a + b) 0 / (runs : ℚ)

/-- C6 (counterexample): the claim is false — the runs `(times, comm)
= ([1,3],[1,1])` and `([2,2],[5,7])` produce the identical report
(`AVG_TIME = 2000`), yet their minima (1 vs 2), maxima (3 vs 2) and mean
exchange times (1 vs 6) differ, so no reader of the report can recover
them: the code prints only the mean. -/
theorem harness_report_missing_stats : ¬ ReportsFullStats := by
  rintro ⟨fmin, fmean, fmax, fex, h⟩
  have h1 := h 2 8 2 [1, 3] [1, 1]
  have h2 := h 2 8 2 [2, 2] [5, 7]
  have heq : harnessReport 2 8 2 [1, 3] [1, 1] = harnessReport 2 8 2 [2, 2] [5, 7] := by
    simp only [harnessReport, List.foldl]
    norm_num
  rw [heq] at h1
  have hmin : listMin [(1 : ℚ), 3] = listMin [(2 : ℚ), 2] := h1.1.symm.trans h2.1
  simp only [listMin, List.foldl] at hmin
  rw [min_eq_left (by norm_num), min_eq_left (by norm_num)] at hmin
  norm_num at hmin

/-- C6 (amended): after the run the coordinator reports exactly the four
tokens `RANKS`, `SIZE`, `RUNS` and `AVG_TIME`, where `AVG_TIME` is the
mean per-iteration elapsed time (sum of the per-iteration times over the
iteration count, in milliseconds); the minimum and maximum are not
reported, and the exchange-step time — though accumulated — does not
influence the output at all. -/
theorem harness_report_mean_only (p N runs : ℕ)
    (times commTimes commTimes' : List ℚ) :
    harnessReport p N runs times commTimes
        = harnessReport p N runs times commTimes' ∧
      (harnessReport p N runs times commTimes).map Prod.fst
        = ["RANKS", "SIZE", "RUNS", "AVG_TIME"] ∧
      ("AVG_TIME", times.sum / (runs : ℚ) * 1000)
        ∈ harnessReport p N runs times commTimes := by
  refine ⟨rfl, rfl, ?_⟩
  have hfold : ∀ (l : List ℚ) (a : ℚ), l.foldl (fun x y => x + y) a = a + l.sum := by
    intro l
    induction l with
    | nil => intro a; simp
    | cons x xs ih => intro a; simp only [List.foldl, List.sum_cons, ih]; ring
  have hsum : times.foldl (fun x y => x + y) 0 = times.sum := by
    rw [hfold times 0, zero_add]
  simp [harnessReport, hsum]

/-! ### Null-neighbor frame property -/

/-- C7: a worker at a grid edge has the null-neighbor sentinel in the
corresponding direction; the Boundary Exchanger performs no operation in
that direction (and the code has no error path at all), so the border
cells on that side — never written by any stage, and zero-initialized —
stay `0` for the whole run, i.e. after every number `k` of harness
iterations.  (Halo corner cells are covered: they belong to two sides.) -/
theorem null_neighbor_borders_zero (p N : ℕ) (g : Img) (k r : ℕ) :
    (myRow p r = 0 → ∀ j, (runIters p N g k).2 r 0 j = 0) ∧
    (myRow p r = gridRows p - 1 →
      ∀ j, (runIters p N g k).2 r (localRows p N r + 1) j = 0) ∧
    (myCol p r = 0 → ∀ i, (runIters p N g k).2 r i 0 = 0) ∧
    (myCol p r = gridCols p - 1 →
      ∀ i, (runIters p N g k).2 r i (localCols p N r + 1) = 0) := by
  induction k with
  | zero => exact ⟨fun _ _ => rfl, fun _ _ => rfl, fun _ _ => rfl, fun _ _ => rfl⟩
  | succ k ih =>
    obtain ⟨ih1, ih2, ih3, ih4⟩ := ih
    have hstep : (runIters p N g (k + 1)).2 r
        = exchangeTiles p N
            (fun r' => scatterTile p N (runIters p N g k).1 r' ((runIters p N g k).2 r')) r :=
      rfl
    refine ⟨?_, ?_, ?_, ?_⟩
    · intro h j
      rw [hstep]
      simp only [exchangeTiles]
      rw [if_neg (by omega), if_neg (by omega), if_neg (by omega), if_neg (by omega)]
      simp only [scatterTile]
      rw [if_neg (by omega)]
      exact ih1 h j
    · intro h j
      rw [hstep]
      simp only [exchangeTiles]
      rw [if_neg (by omega), if_neg (by omega), if_neg (by omega), if_neg (by omega)]
      simp only [scatterTile]
      rw [if_neg (by omega)]
      exact ih2 h j
    · intro h i
      rw [hstep]
      simp only [exchangeTiles]
      rw [if_neg (by omega), if_neg (by omega), if_neg (by omega), if_neg (by omega)]
      simp only [scatterTile]
      rw [if_neg (by omega)]
      exact ih3 h i
    · intro h i
      rw [hstep]
      simp only [exchangeTiles]
      rw [if_neg (by omega), if_neg (by omega), if_neg (by omega), if_neg (by omega)]
      simp only [scatterTile]
      rw [if_neg (by omega)]
      exact ih4 h i

/-- Witness for C7 at `p = 6` (a `2 × 3` grid), `N = 6`, two iterations:
rank 0 is a north-west corner worker, rank 5 a south-east corner worker;
all four null directions are exercised. -/
theorem null_neighbor_borders_zero_witness :
    (myRow 6 0 = 0 ∧ myCol 6 0 = 0 ∧ myRow 6 5 = gridRows 6 - 1 ∧
        myCol 6 5 = gridCols 6 - 1) ∧
      (∀ j, (runIters 6 6 (testImage 6) 2).2 0 0 j = 0) ∧
      (∀ i, (runIters 6 6 (testImage 6) 2).2 0 i 0 = 0) ∧
      (∀ j, (runIters 6 6 (testImage 6) 2).2 5 (localRows 6 6 5 + 1) j = 0) ∧
      (∀ i, (runIters 6 6 (testImage 6) 2).2 5 i (localCols 6 6 5 + 1) = 0) :=
  ⟨⟨by decide, by decide, by decide, by decide⟩,
    (null_neighbor_borders_zero 6 6 (testImage 6) 2 0).1 (by decide),
    (null_neighbor_borders_zero 6 6 (testImage 6) 2 0).2.2.1 (by decide),
    (null_neighbor_borders_zero 6 6 (testImage 6) 2 5).2.1 (by decide),
    (null_neighbor_borders_zero 6 6 (testImage 6) 2 5).2.2.2 (by decide)⟩

/-! ### The partition-invariance claim (C1) -/

/-- C1: the claim — that for every `p ≥ 1` and `N ≥ 3` the gathered
output agrees with the `p = 1` reference run at every interior cell
(rows/cols `1 .. N-2`) — fails on the code: at `p = 4`, `N = 4`
(a `2 × 2` grid) with the program's own test image, interior cell
`(2, 2)` is the top-left interior cell of rank 3's tile; its north-west
diagonal neighbor lives in the tile's halo *corner*, which
`exchange_halo_blocking` never fills (the row exchange moves only the
`cols` interior columns and the column exchange only the `rows` interior
rows), so rank 3 computes with `0` there instead of pixel `(1,1) = 5`,
giving `⌊√(13² + 37²)⌋ = 39`, while the single-worker run reads the true
pixel and gives `⌊√(8² + 32²)⌋ = 32`. -/
theorem distributed_vs_reference_mismatch :
    distributedRun 4 4 (testImage 4) 2 2 = 39 ∧
      distributedRun 1 4 (testImage 4) 2 2 = 32 ∧
      distributedRun 4 4 (testImage 4) 2 2 ≠ distributedRun 1 4 (testImage 4) 2 2 := by
  decide

/-! ### The halo-exchange communication protocol (C10)

Each worker's `exchange_halo_blocking` issues a fixed sequence of
`MPI_Sendrecv` rendezvous operations, in program order: north, south,
then the west loop (`local_rows` single-element operations, send tag
`2+i` / receive tag `2+rows+i`) and the east loop (send tag `2+rows+i` /
receive tag `2+i`); a direction whose neighbor is `MPI_PROC_NULL` is
skipped.  We model each `MPI_Sendrecv` as one atomic two-party rendezvous
(its blocking send and its simultaneous receive), a worker's exchange as
the list of these operations, and the whole exchange as a synchronous
execution in which a pair of workers may complete their current head
operations exactly when the two operations address each other with
complementary tags and equal element counts. -/

/-- One `MPI_Sendrecv` call: the peer rank, the send tag, the receive
tag and the element count (both directions of one call use the same
count in this program). -/
structure Op where
  peer : ℕ
  stag : ℕ
  rtag : ℕ
  cnt : ℕ
deriving DecidableEq

/-- The north `MPI_Sendrecv` (`send tag 0, recv tag 1, cols` ints),
issued iff `my_row > 0`. -/
def northOps (p N r : ℕ) : List Op :=
  if 0 < myRow p r then [⟨r - gridCols p, 0, 1, localCols p N r⟩] else []

/-- The south `MPI_Sendrecv` (`send tag 1, recv tag 0, cols` ints),
issued iff `my_row < grid_rows - 1`. -/
def southOps (p N r : ℕ) : List Op :=
  if myRow p r < gridRows p - 1 then [⟨r + gridCols p, 1, 0, localCols p N r⟩] else []

/-- The west loop: `local_rows` single-int `MPI_Sendrecv`s
(`send tag 2+i, recv tag 2+rows+i`), issued iff `my_col > 0`. -/
def westOps (p N r : ℕ) : List Op :=
  if 0 < myCol p r then
    (List.range (localRows p N r)).map
      (fun i => ⟨r - 1, 2 + i, 2 + localRows p N r + i, 1⟩)
  else []

/-- The east loop: `local_rows` single-int `MPI_Sendrecv`s
(`send tag 2+rows+i, recv tag 2+i`), issued iff `my_col < grid_cols - 1`. -/
def eastOps (p N r : ℕ) : List Op :=
  if myCol p r < gridCols p - 1 then
    (List.range (localRows p N r)).map
      (fun i => ⟨r + 1, 2 + localRows p N r + i, 2 + i, 1⟩)
  else []

/-- Rank `r`'s `exchange_halo_blocking` in program order: north, south,
west loop, east loop. -/
def prog (p N r : ℕ) : List Op :=
  northOps p N r ++ (southOps p N r ++ (westOps p N r ++ eastOps p N r))

/-- Two operations of workers `w` and `v` are the two halves of the same
paired exchange: they address each other, each one's send tag is the
other's receive tag, and the element counts agree. -/
def Mirrors (w v : ℕ) (o o' : Op) : Prop :=
  o.peer = v ∧ o'.peer = w ∧ o.stag = o'.rtag ∧ o.rtag = o'.stag ∧ o.cnt = o'.cnt

instance (w v : ℕ) (o o' : Op) : Decidable (Mirrors w v o o') :=
  inferInstanceAs (Decidable (_ ∧ _ ∧ _ ∧ _ ∧ _))

/-- One synchronous rendezvous between the pair `wv` of workers: it
completes (advancing both program counters) exactly when both workers
are at an operation and the two operations mirror each other. -/
def step (p N : ℕ) (pcs : ℕ → ℕ) (wv : ℕ × ℕ) : Option (ℕ → ℕ) :=
  match (prog p N wv.1)[pcs wv.1]?, (prog p N wv.2)[pcs wv.2]? with
  | some o, some o' =>
    if wv.1 ≠ wv.2 ∧ Mirrors wv.1 wv.2 o o' then
      some (fun x => if x = wv.1 ∨ x = wv.2 then pcs x + 1 else pcs x)
    else none
  | _, _ => none

/-- Run a schedule of rendezvous pairs; `none` if any rendezvous in it
cannot complete. -/
def execSched (p N : ℕ) : (ℕ → ℕ) → List (ℕ × ℕ) → Option (ℕ → ℕ)
  | pcs, [] => some pcs
  | pcs, s :: rest =>
    match step p N pcs s with
    | some pcs' => execSched p N pcs' rest
    | none => none

/-- The north/south rendezvous of grid column `c`, top to bottom. -/
def colSched (p c : ℕ) : List (ℕ × ℕ) :=
  (List.range (gridRows p - 1)).map (fun a => (rk p a c, rk p (a + 1) c))

/-- All north/south rendezvous. -/
def nsSched (p : ℕ) : List (ℕ × ℕ) :=
  (List.range (gridCols p)).flatMap (fun c => colSched p c)

/-- The west/east rendezvous of grid row `a`, left to right, `rowSize`
single-element rendezvous per adjacent pair. -/
def rowSched (p N a : ℕ) : List (ℕ × ℕ) :=
  (List.range (gridCols p - 1)).flatMap
    (fun b => List.replicate (rowSize p N a) (rk p a b, rk p a (b + 1)))

/-- All west/east rendezvous. -/
def ewSched (p N : ℕ) : List (ℕ × ℕ) :=
  (List.range (gridRows p)).flatMap (fun a => rowSched p N a)

/-- A complete schedule of the blocking halo exchange: all north/south
pairs, then all west/east pairs (matching each worker's program order:
north, south, west, east). -/
def fullSched (p N : ℕ) : List (ℕ × ℕ) := nsSched p ++ ewSched p N

/-- Per-direction operation counts of rank `r`'s exchange. -/
def nLen (p r : ℕ) : ℕ := if 0 < myRow p r then 1 else 0

def sLen (p r : ℕ) : ℕ := if myRow p r < gridRows p - 1 then 1 else 0

def wLen (p N r : ℕ) : ℕ := if 0 < myCol p r then localRows p N r else 0

def eLen (p N r : ℕ) : ℕ := if myCol p r < gridCols p - 1 then localRows p N r else 0

theorem prog_length (p N r : ℕ) :
    (prog p N r).length = nLen p r + sLen p r + wLen p N r + eLen p N r := by
  rw [prog]
  simp only [List.length_append, northOps, southOps, westOps, eastOps,
    nLen, sLen, wLen, eLen]
  by_cases h1 : 0 < myRow p r <;> by_cases h2 : myRow p r < gridRows p - 1 <;>
    by_cases h3 : 0 < myCol p r <;> by_cases h4 : myCol p r < gridCols p - 1 <;>
    simp [h1, h2, h3, h4] <;> omega

theorem northOps_length (p N r : ℕ) : (northOps p N r).length = nLen p r := by
  rw [northOps, nLen]
  by_cases h : 0 < myRow p r <;> simp [h]

theorem southOps_length (p N r : ℕ) : (southOps p N r).length = sLen p r := by
  rw [southOps, sLen]
  by_cases h : myRow p r < gridRows p - 1 <;> simp [h]

theorem westOps_length (p N r : ℕ) : (westOps p N r).length = wLen p N r := by
  rw [westOps, wLen]
  by_cases h : 0 < myCol p r <;> simp [h]

theorem prog_get_north (p N r : ℕ) (h : 0 < myRow p r) :
    (prog p N r)[(0 : ℕ)]? = some ⟨r - gridCols p, 0, 1, localCols p N r⟩ := by
  rw [prog, List.getElem?_append_left (by rw [northOps_length, nLen, if_pos h]; omega),
    northOps, if_pos h]
  rfl

theorem prog_get_south (p N r : ℕ) (h : myRow p r < gridRows p - 1) :
    (prog p N r)[nLen p r]? = some ⟨r + gridCols p, 1, 0, localCols p N r⟩ := by
  rw [prog, List.getElem?_append_right (by rw [northOps_length]),
    northOps_length, Nat.sub_self,
    List.getElem?_append_left (by rw [southOps_length, sLen, if_pos h]; omega),
    southOps, if_pos h]
  rfl

theorem prog_get_west (p N r i : ℕ) (h : 0 < myCol p r) (hi : i < localRows p N r) :
    (prog p N r)[nLen p r + sLen p r + i]?
      = some ⟨r - 1, 2 + i, 2 + localRows p N r + i, 1⟩ := by
  rw [prog, List.getElem?_append_right (by rw [northOps_length]; omega),
    northOps_length]
  have e1 : nLen p r + sLen p r + i - nLen p r = sLen p r + i := by omega
  rw [e1, List.getElem?_append_right (by rw [southOps_length]; omega),
    southOps_length]
  have e2 : sLen p r + i - sLen p r = i := by omega
  rw [e2, List.getElem?_append_left
      (by rw [westOps_length, wLen, if_pos h]; omega),
    westOps, if_pos h, List.getElem?_map, List.getElem?_range hi]
  rfl

theorem prog_get_east (p N r i : ℕ) (h : myCol p r < gridCols p - 1)
    (hi : i < localRows p N r) :
    (prog p N r)[nLen p r + sLen p r + wLen p N r + i]?
      = some ⟨r + 1, 2 + localRows p N r + i, 2 + i, 1⟩ := by
  rw [prog, List.getElem?_append_right (by rw [northOps_length]; omega),
    northOps_length]
  have e1 : nLen p r + sLen p r + wLen p N r + i - nLen p r
      = sLen p r + wLen p N r + i := by omega
  rw [e1, List.getElem?_append_right (by rw [southOps_length]; omega),
    southOps_length]
  have e2 : sLen p r + wLen p N r + i - sLen p r = wLen p N r + i := by omega
  rw [e2, List.getElem?_append_right (by rw [westOps_length]; omega),
    westOps_length]
  have e3 : wLen p N r + i - wLen p N r = i := by omega
  rw [e3, eastOps, if_pos h, List.getElem?_map, List.getElem?_range hi]
  rfl

/-! ### Neighbor geometry on the rank grid -/

theorem rk_succ_row (p a c : ℕ) : rk p (a + 1) c = rk p a c + gridCols p := by
  rw [rk, rk]
  ring

theorem rk_succ_col (p a b : ℕ) : rk p a (b + 1) = rk p a b + 1 := rfl

theorem rk_inj_row (p a a' c : ℕ) (hc : c < gridCols p)
    (h : rk p a c = rk p a' c) : a = a' := by
  rw [← myRow_rk p a c hc, h, myRow_rk p a' c hc]

theorem rk_inj_full (p a b a' b' : ℕ) (hb : b < gridCols p) (hb' : b' < gridCols p)
    (h : rk p a b = rk p a' b') : a = a' ∧ b = b' :=
  ⟨by rw [← myRow_rk p a b hb, h, myRow_rk p a' b' hb'],
   by rw [← myCol_rk p a b hb, h, myCol_rk p a' b' hb']⟩

/-! ### Execution lemmas -/

theorem step_fire (p N : ℕ) (pcs : ℕ → ℕ) (w v : ℕ) (o o' : Op)
    (hw : (prog p N w)[pcs w]? = some o) (hv : (prog p N v)[pcs v]? = some o')
    (hne : w ≠ v) (hm : Mirrors w v o o') :
    step p N pcs (w, v)
      = some (fun x => if x = w ∨ x = v then pcs x + 1 else pcs x) := by
  simp only [step, hw, hv]
  rw [if_pos ⟨hne, hm⟩]

theorem execSched_cons (p N : ℕ) (pcs pcs1 : ℕ → ℕ) (s : ℕ × ℕ)
    (rest : List (ℕ × ℕ)) (h : step p N pcs s = some pcs1) :
    execSched p N pcs (s :: rest) = execSched p N pcs1 rest := by
  simp only [execSched, h]

theorem execSched_append (p N : ℕ) :
    ∀ (s₁ s₂ : List (ℕ × ℕ)) (pcs : ℕ → ℕ),
      execSched p N pcs (s₁ ++ s₂)
        = Option.bind (execSched p N pcs s₁) (fun q => execSched p N q s₂) := by
  intro s₁
  induction s₁ with
  | nil => intro s₂ pcs; rfl
  | cons s rest ih =>
    intro s₂ pcs
    rw [List.cons_append]
    cases hstep : step p N pcs s with
    | none => simp only [execSched, hstep, Option.bind]
    | some pcs1 =>
      rw [execSched_cons p N pcs pcs1 s _ hstep, execSched_cons p N pcs pcs1 s rest hstep,
        ih s₂ pcs1]

/-! ### The north/south phase completes, column by column -/

theorem nsChain (p N c : ℕ) (hp : 1 ≤ p) (hc : c < gridCols p) :
    ∀ n k, k + n = gridRows p - 1 →
      ∀ pcs : ℕ → ℕ, pcs (rk p k c) = nLen p (rk p k c) →
        (∀ a, k < a → a < gridRows p → pcs (rk p a c) = 0) →
        ∃ pcs',
          execSched p N pcs
              ((List.range' k n).map (fun a => (rk p a c, rk p (a + 1) c)))
            = some pcs' ∧
          (∀ a, k ≤ a → a < gridRows p →
            pcs' (rk p a c) = nLen p (rk p a c) + sLen p (rk p a c)) ∧
          (∀ x, (∀ a, k ≤ a → a < gridRows p → x ≠ rk p a c) → pcs' x = pcs x) := by
  intro n
  induction n with
  | zero =>
    intro k hk pcs h1 h2
    refine ⟨pcs, rfl, ?_, fun x _ => rfl⟩
    intro a ha1 ha2
    have hak : a = k := by omega
    subst hak
    have hs : sLen p (rk p a c) = 0 := by
      rw [sLen, if_neg]
      rw [myRow_rk p a c hc]
      omega
    rw [hs, Nat.add_zero]
    exact h1
  | succ n ih =>
    intro k hk pcs h1 h2
    have hR : 1 ≤ gridRows p := gridRows_pos p hp
    have hklt : k < gridRows p - 1 := by omega
    have hrow_w : myRow p (rk p k c) = k := myRow_rk p k c hc
    have hrow_v : myRow p (rk p (k + 1) c) = k + 1 := myRow_rk p (k + 1) c hc
    have hvw : rk p (k + 1) c = rk p k c + gridCols p := rk_succ_row p k c
    have hgc : 1 ≤ gridCols p := gridCols_pos p hp
    have hsouth : (prog p N (rk p k c))[pcs (rk p k c)]?
        = some ⟨rk p k c + gridCols p, 1, 0, localCols p N (rk p k c)⟩ := by
      rw [h1]
      exact prog_get_south p N _ (by rw [hrow_w]; omega)
    have hnorth : (prog p N (rk p (k + 1) c))[pcs (rk p (k + 1) c)]?
        = some ⟨rk p (k + 1) c - gridCols p, 0, 1, localCols p N (rk p (k + 1) c)⟩ := by
      rw [h2 (k + 1) (by omega) (by omega)]
      exact prog_get_north p N _ (by rw [hrow_v]; omega)
    have hne : rk p k c ≠ rk p (k + 1) c := by omega
    have hcnt : localCols p N (rk p k c) = localCols p N (rk p (k + 1) c) := by
      rw [localCols_rk p N k c hc, localCols_rk p N (k + 1) c hc]
    have hpeer2 : rk p (k + 1) c - gridCols p = rk p k c := by omega
    have hm : Mirrors (rk p k c) (rk p (k + 1) c)
        ⟨rk p k c + gridCols p, 1, 0, localCols p N (rk p k c)⟩
        ⟨rk p (k + 1) c - gridCols p, 0, 1, localCols p N (rk p (k + 1) c)⟩ :=
      ⟨hvw.symm, hpeer2, rfl, rfl, hcnt⟩
    have hstep := step_fire p N pcs (rk p k c) (rk p (k + 1) c) _ _ hsouth hnorth hne hm
    have hpcs1_v :
        (fun x => if x = rk p k c ∨ x = rk p (k + 1) c then pcs x + 1 else pcs x)
            (rk p (k + 1) c)
          = nLen p (rk p (k + 1) c) := by
      show (if rk p (k + 1) c = rk p k c ∨ rk p (k + 1) c = rk p (k + 1) c then
          pcs (rk p (k + 1) c) + 1 else pcs (rk p (k + 1) c))
        = nLen p (rk p (k + 1) c)
      rw [if_pos (Or.inr rfl), h2 (k + 1) (by omega) (by omega), nLen, hrow_v,
        if_pos (by omega)]
    have hpcs1_rest : ∀ a, k + 1 < a → a < gridRows p →
        (fun x => if x = rk p k c ∨ x = rk p (k + 1) c then pcs x + 1 else pcs x)
            (rk p a c)
          = 0 := by
      intro a ha1 ha2
      show (if rk p a c = rk p k c ∨ rk p a c = rk p (k + 1) c then
          pcs (rk p a c) + 1 else pcs (rk p a c)) = 0
      rw [if_neg, h2 a (by omega) ha2]
      rintro (hx | hx)
      · exact absurd (rk_inj_row p a k c hc hx) (by omega)
      · exact absurd (rk_inj_row p a (k + 1) c hc hx) (by omega)
    obtain ⟨pcs', hexec, hdone, hframe⟩ :=
      ih (k + 1) (by omega)
        (fun x => if x = rk p k c ∨ x = rk p (k + 1) c then pcs x + 1 else pcs x)
        hpcs1_v hpcs1_rest
    refine ⟨pcs', ?_, ?_, ?_⟩
    · rw [List.range'_succ, List.map_cons,
        execSched_cons p N pcs _ _ _ hstep]
      exact hexec
    · intro a ha1 ha2
      rcases Nat.eq_or_lt_of_le ha1 with hak | hak
      · -- a = k: untouched by the tail schedule, fired exactly once
        subst hak
        rw [hframe (rk p k c)
          (fun a' ha1' _ hx => absurd (rk_inj_row p k a' c hc hx) (by omega))]
        show (if rk p k c = rk p k c ∨ rk p k c = rk p (k + 1) c then
            pcs (rk p k c) + 1 else pcs (rk p k c))
          = nLen p (rk p k c) + sLen p (rk p k c)
        rw [if_pos (Or.inl rfl), h1, sLen, hrow_w, if_pos hklt]
      · exact hdone a (by omega) ha2
    · intro x hx
      rw [hframe x (fun a ha1 ha2 => hx a (by omega) ha2)]
      show (if x = rk p k c ∨ x = rk p (k + 1) c then pcs x + 1 else pcs x) = pcs x
      rw [if_neg]
      rintro (h | h)
      · exact hx k (le_refl k) (by omega) h
      · exact hx (k + 1) (by omega) (by omega) h

theorem colSched_exec (p N c : ℕ) (hp : 1 ≤ p) (hc : c < gridCols p)
    (pcs : ℕ → ℕ) (h0 : ∀ a, a < gridRows p → pcs (rk p a c) = 0) :
    ∃ pcs', execSched p N pcs (colSched p c) = some pcs' ∧
      (∀ a, a < gridRows p →
        pcs' (rk p a c) = nLen p (rk p a c) + sLen p (rk p a c)) ∧
      (∀ x, (∀ a, a < gridRows p → x ≠ rk p a c) → pcs' x = pcs x) := by
  have hR : 1 ≤ gridRows p := gridRows_pos p hp
  have h1 : pcs (rk p 0 c) = nLen p (rk p 0 c) := by
    rw [h0 0 (by omega), nLen, myRow_rk p 0 c hc, if_neg (lt_irrefl 0)]
  obtain ⟨pcs', hexec, hdone, hframe⟩ :=
    nsChain p N c hp hc (gridRows p - 1) 0 (by omega) pcs h1
      (fun a _ ha2 => h0 a ha2)
  refine ⟨pcs', ?_, fun a ha => hdone a (Nat.zero_le a) ha,
    fun x hx => hframe x (fun a _ ha2 => hx a ha2)⟩
  rw [colSched, List.range_eq_range']
  exact hexec

theorem nsFold (p N : ℕ) (hp : 1 ≤ p) :
    ∀ (cs : List ℕ), (∀ c ∈ cs, c < gridCols p) → cs.Nodup →
      ∀ pcs : ℕ → ℕ, (∀ c ∈ cs, ∀ a, a < gridRows p → pcs (rk p a c) = 0) →
        ∃ pcs', execSched p N pcs (cs.flatMap (fun c => colSched p c)) = some pcs' ∧
          (∀ c ∈ cs, ∀ a, a < gridRows p →
            pcs' (rk p a c) = nLen p (rk p a c) + sLen p (rk p a c)) ∧
          (∀ x, (∀ c ∈ cs, ∀ a, a < gridRows p → x ≠ rk p a c) → pcs' x = pcs x) := by
  intro cs
  induction cs with
  | nil =>
    intro _ _ pcs _
    exact ⟨pcs, rfl, by simp, fun x _ => rfl⟩
  | cons c cs ih =>
    intro hlt hnd pcs h0
    have hc : c < gridCols p := hlt c (List.mem_cons_self c cs)
    obtain ⟨pcs1, hexec1, hdone1, hframe1⟩ :=
      colSched_exec p N c hp hc pcs (h0 c (List.mem_cons_self c cs))
    have hcnotin : c ∉ cs := (List.nodup_cons.mp hnd).1
    have h0' : ∀ c' ∈ cs, ∀ a, a < gridRows p → pcs1 (rk p a c') = 0 := by
      intro c' hc' a ha
      rw [hframe1 (rk p a c') ?_, h0 c' (List.mem_cons_of_mem c hc') a ha]
      intro a' _ hx
      have hcc := (rk_inj_full p a c' a' c (hlt c' (List.mem_cons_of_mem c hc')) hc hx).2
      exact hcnotin (hcc ▸ hc')
    obtain ⟨pcs', hexec2, hdone2, hframe2⟩ :=
      ih (fun c' h => hlt c' (List.mem_cons_of_mem c h)) (List.nodup_cons.mp hnd).2
        pcs1 h0'
    refine ⟨pcs', ?_, ?_, ?_⟩
    · rw [List.flatMap_cons, execSched_append, hexec1]
      exact hexec2
    · intro c' hc' a ha
      rcases List.mem_cons.mp hc' with hcc | hc'
      · subst hcc
        rw [hframe2 (rk p a c') ?_, hdone1 a ha]
        intro c'' hc'' a'' ha'' hx
        have := (rk_inj_full p a c' a'' c''
          hc (hlt c'' (List.mem_cons_of_mem c' hc'')) hx).2
        exact hcnotin (this ▸ hc'')
      · exact hdone2 c' hc' a ha
    · intro x hx
      rw [hframe2 x (fun c' h a ha => hx c' (List.mem_cons_of_mem c h) a ha),
        hframe1 x (fun a ha => hx c (List.mem_cons_self c cs) a ha)]

theorem nsSched_exec (p N : ℕ) (hp : 1 ≤ p) :
    ∃ pcs', execSched p N (fun _ => 0) (nsSched p) = some pcs' ∧
      ∀ r, r < p → pcs' r = nLen p r + sLen p r := by
  obtain ⟨pcs', hexec, hdone, _⟩ :=
    nsFold p N hp (List.range (gridCols p))
      (fun c h => List.mem_range.mp h) (List.nodup_range _)
      (fun _ => 0) (fun _ _ _ _ => rfl)
  refine ⟨pcs', hexec, ?_⟩
  intro r hr
  have h := hdone (myCol p r) (List.mem_range.mpr (myCol_lt p r hp)) (myRow p r)
    (myRow_lt p r hp hr)
  rwa [rk_myRowCol p r] at h

/-! ### The west/east phase completes, row by row -/

theorem ewPairFire (p N a b : ℕ) (hb : b + 1 < gridCols p) :
    ∀ m j, j + m = rowSize p N a →
      ∀ pcs : ℕ → ℕ,
        pcs (rk p a b)
            = nLen p (rk p a b) + sLen p (rk p a b) + wLen p N (rk p a b) + j →
        pcs (rk p a (b + 1)) = nLen p (rk p a (b + 1)) + sLen p (rk p a (b + 1)) + j →
        ∃ pcs',
          execSched p N pcs (List.replicate m (rk p a b, rk p a (b + 1))) = some pcs' ∧
          pcs' (rk p a b)
              = nLen p (rk p a b) + sLen p (rk p a b) + wLen p N (rk p a b)
                  + rowSize p N a ∧
          pcs' (rk p a (b + 1))
              = nLen p (rk p a (b + 1)) + sLen p (rk p a (b + 1)) + rowSize p N a ∧
          (∀ x, x ≠ rk p a b → x ≠ rk p a (b + 1) → pcs' x = pcs x) := by
  have hbc : b < gridCols p := by omega
  have hbc1 : b + 1 ≤ gridCols p := by omega
  have hcw : myCol p (rk p a b) = b := myCol_rk p a b hbc
  have hcv : myCol p (rk p a (b + 1)) = b + 1 := myCol_rk p a (b + 1) hb
  have hlw : localRows p N (rk p a b) = rowSize p N a := localRows_rk p N a b hbc
  have hlv : localRows p N (rk p a (b + 1)) = rowSize p N a := localRows_rk p N a (b + 1) hb
  have hvw : rk p a (b + 1) = rk p a b + 1 := rfl
  intro m
  induction m with
  | zero =>
    intro j hj pcs hw hv
    have hjr : j = rowSize p N a := by omega
    subst hjr
    exact ⟨pcs, rfl, hw, hv, fun x _ _ => rfl⟩
  | succ m ih =>
    intro j hj pcs hw hv
    have hjlt : j < rowSize p N a := by omega
    have heast : (prog p N (rk p a b))[pcs (rk p a b)]?
        = some ⟨rk p a b + 1, 2 + localRows p N (rk p a b) + j, 2 + j, 1⟩ := by
      rw [hw]
      exact prog_get_east p N (rk p a b) j (by rw [hcw]; omega) (by rw [hlw]; omega)
    have hwest : (prog p N (rk p a (b + 1)))[pcs (rk p a (b + 1))]?
        = some ⟨rk p a (b + 1) - 1, 2 + j, 2 + localRows p N (rk p a (b + 1)) + j, 1⟩ := by
      rw [hv]
      exact prog_get_west p N (rk p a (b + 1)) j (by rw [hcv]; omega) (by rw [hlv]; omega)
    have hne : rk p a b ≠ rk p a (b + 1) := by omega
    have hpeer2 : rk p a (b + 1) - 1 = rk p a b := by omega
    have hrows : 2 + localRows p N (rk p a b) + j
        = 2 + localRows p N (rk p a (b + 1)) + j := by rw [hlw, hlv]
    have hm : Mirrors (rk p a b) (rk p a (b + 1))
        ⟨rk p a b + 1, 2 + localRows p N (rk p a b) + j, 2 + j, 1⟩
        ⟨rk p a (b + 1) - 1, 2 + j, 2 + localRows p N (rk p a (b + 1)) + j, 1⟩ :=
      ⟨hvw.symm, hpeer2, hrows, rfl, rfl⟩
    have hstep := step_fire p N pcs (rk p a b) (rk p a (b + 1)) _ _ heast hwest hne hm
    have hw1 : (fun x => if x = rk p a b ∨ x = rk p a (b + 1) then pcs x + 1 else pcs x)
        (rk p a b)
        = nLen p (rk p a b) + sLen p (rk p a b) + wLen p N (rk p a b) + (j + 1) := by
      show (if rk p a b = rk p a b ∨ rk p a b = rk p a (b + 1) then
          pcs (rk p a b) + 1 else pcs (rk p a b))
        = nLen p (rk p a b) + sLen p (rk p a b) + wLen p N (rk p a b) + (j + 1)
      rw [if_pos (Or.inl rfl), hw]
      omega
    have hv1 : (fun x => if x = rk p a b ∨ x = rk p a (b + 1) then pcs x + 1 else pcs x)
        (rk p a (b + 1))
        = nLen p (rk p a (b + 1)) + sLen p (rk p a (b + 1)) + (j + 1) := by
      show (if rk p a (b + 1) = rk p a b ∨ rk p a (b + 1) = rk p a (b + 1) then
          pcs (rk p a (b + 1)) + 1 else pcs (rk p a (b + 1)))
        = nLen p (rk p a (b + 1)) + sLen p (rk p a (b + 1)) + (j + 1)
      rw [if_pos (Or.inr rfl), hv]
      omega
    obtain ⟨pcs', hexec, hdw, hdv, hframe⟩ :=
      ih (j + 1) (by omega)
        (fun x => if x = rk p a b ∨ x = rk p a (b + 1) then pcs x + 1 else pcs x)
        hw1 hv1
    refine ⟨pcs', ?_, hdw, hdv, ?_⟩
    · rw [List.replicate_succ, execSched_cons p N pcs _ _ _ hstep]
      exact hexec
    · intro x hx1 hx2
      rw [hframe x hx1 hx2]
      show (if x = rk p a b ∨ x = rk p a (b + 1) then pcs x + 1 else pcs x) = pcs x
      rw [if_neg]
      rintro (h | h)
      · exact hx1 h
      · exact hx2 h

theorem ewChain (p N a : ℕ) (hp : 1 ≤ p) :
    ∀ n b, b + n = gridCols p - 1 →
      ∀ pcs : ℕ → ℕ,
        pcs (rk p a b)
            = nLen p (rk p a b) + sLen p (rk p a b) + wLen p N (rk p a b) →
        (∀ b', b < b' → b' < gridCols p →
          pcs (rk p a b') = nLen p (rk p a b') + sLen p (rk p a b')) →
        ∃ pcs',
          execSched p N pcs
              ((List.range' b n).flatMap
                (fun b' => List.replicate (rowSize p N a) (rk p a b', rk p a (b' + 1))))
            = some pcs' ∧
          (∀ b', b ≤ b' → b' < gridCols p →
            pcs' (rk p a b') = (prog p N (rk p a b')).length) ∧
          (∀ x, (∀ b', b ≤ b' → b' < gridCols p → x ≠ rk p a b') → pcs' x = pcs x) := by
  have hC : 1 ≤ gridCols p := gridCols_pos p hp
  intro n
  induction n with
  | zero =>
    intro b hb pcs h1 h2
    refine ⟨pcs, rfl, ?_, fun x _ => rfl⟩
    intro b' hb1 hb2
    have hbb : b' = b := by omega
    subst hbb
    have hbb' : b' = gridCols p - 1 := by omega
    have hcol : myCol p (rk p a b') = b' := myCol_rk p a b' (by omega)
    have he : eLen p N (rk p a b') = 0 := by
      rw [eLen, if_neg]
      rw [hcol]
      omega
    rw [prog_length, he, Nat.add_zero]
    exact h1
  | succ n ih =>
    intro b hb pcs h1 h2
    have hblt : b + 1 < gridCols p := by omega
    have hcw : myCol p (rk p a b) = b := myCol_rk p a b (by omega)
    have hcv : myCol p (rk p a (b + 1)) = b + 1 := myCol_rk p a (b + 1) hblt
    have hlw : localRows p N (rk p a b) = rowSize p N a := localRows_rk p N a b (by omega)
    have hlv : localRows p N (rk p a (b + 1)) = rowSize p N a :=
      localRows_rk p N a (b + 1) hblt
    obtain ⟨pcs1, hexec1, hdw, hdv, hframe1⟩ :=
      ewPairFire p N a b hblt (rowSize p N a) 0 (by omega) pcs
        (by omega) (by have := h2 (b + 1) (by omega) hblt; omega)
    have hpcs1_v : pcs1 (rk p a (b + 1))
        = nLen p (rk p a (b + 1)) + sLen p (rk p a (b + 1))
            + wLen p N (rk p a (b + 1)) := by
      rw [hdv, wLen, if_pos (by rw [hcv]; omega), hlv]
    have hpcs1_rest : ∀ b', b + 1 < b' → b' < gridCols p →
        pcs1 (rk p a b') = nLen p (rk p a b') + sLen p (rk p a b') := by
      intro b' hb1 hb2
      rw [hframe1 (rk p a b') ?_ ?_, h2 b' (by omega) hb2]
      · intro hx
        exact absurd ((rk_inj_full p a b' a b (by omega) (by omega) hx).2) (by omega)
      · intro hx
        exact absurd ((rk_inj_full p a b' a (b + 1) (by omega) hblt hx).2) (by omega)
    obtain ⟨pcs', hexec2, hdone2, hframe2⟩ := ih (b + 1) (by omega) pcs1 hpcs1_v hpcs1_rest
    refine ⟨pcs', ?_, ?_, ?_⟩
    · rw [List.range'_succ, List.flatMap_cons, execSched_append, hexec1]
      exact hexec2
    · intro b' hb1 hb2
      rcases Nat.eq_or_lt_of_le hb1 with hbb | hbb
      · subst hbb
        rw [hframe2 (rk p a b) ?_, hdw]
        · have he : eLen p N (rk p a b) = rowSize p N a := by
            rw [eLen, if_pos (by rw [hcw]; omega), hlw]
          rw [prog_length, he]
        · intro b'' hb1' hb2' hx
          exact absurd ((rk_inj_full p a b a b'' (by omega) (by omega) hx).2) (by omega)
      · exact hdone2 b' (by omega) hb2
    · intro x hx
      rw [hframe2 x (fun b' hb1 hb2 => hx b' (by omega) hb2),
        hframe1 x (hx b (le_refl b) (by omega)) (hx (b + 1) (by omega) hblt)]

theorem rowSched_exec (p N a : ℕ) (hp : 1 ≤ p)
    (pcs : ℕ → ℕ)
    (h0 : ∀ b, b < gridCols p →
      pcs (rk p a b) = nLen p (rk p a b) + sLen p (rk p a b)) :
    ∃ pcs', execSched p N pcs (rowSched p N a) = some pcs' ∧
      (∀ b, b < gridCols p → pcs' (rk p a b) = (prog p N (rk p a b)).length) ∧
      (∀ x, (∀ b, b < gridCols p → x ≠ rk p a b) → pcs' x = pcs x) := by
  have hC : 1 ≤ gridCols p := gridCols_pos p hp
  have hw0 : wLen p N (rk p a 0) = 0 := by
    rw [wLen, myCol_rk p a 0 hC, if_neg (lt_irrefl 0)]
  have hstart : pcs (rk p a 0)
      = nLen p (rk p a 0) + sLen p (rk p a 0) + wLen p N (rk p a 0) := by
    have := h0 0 hC
    omega
  obtain ⟨pcs', hexec, hdone, hframe⟩ :=
    ewChain p N a hp (gridCols p - 1) 0 (by omega) pcs hstart
      (fun b' _ hb2 => h0 b' hb2)
  refine ⟨pcs', ?_, fun b hb => hdone b (Nat.zero_le b) hb,
    fun x hx => hframe x (fun b' _ hb2 => hx b' hb2)⟩
  rw [rowSched, List.range_eq_range']
  exact hexec

theorem ewFold (p N : ℕ) (hp : 1 ≤ p) :
    ∀ (as : List ℕ), (∀ a ∈ as, a < gridRows p) → as.Nodup →
      ∀ pcs : ℕ → ℕ,
        (∀ a ∈ as, ∀ b, b < gridCols p →
          pcs (rk p a b) = nLen p (rk p a b) + sLen p (rk p a b)) →
        ∃ pcs', execSched p N pcs (as.flatMap (fun a => rowSched p N a)) = some pcs' ∧
          (∀ a ∈ as, ∀ b, b < gridCols p →
            pcs' (rk p a b) = (prog p N (rk p a b)).length) ∧
          (∀ x, (∀ a ∈ as, ∀ b, b < gridCols p → x ≠ rk p a b) → pcs' x = pcs x) := by
  intro as
  induction as with
  | nil =>
    intro _ _ pcs _
    exact ⟨pcs, rfl, by simp, fun x _ => rfl⟩
  | cons a as ih =>
    intro hlt hnd pcs h0
    have ha : a < gridRows p := hlt a (List.mem_cons_self a as)
    obtain ⟨pcs1, hexec1, hdone1, hframe1⟩ :=
      rowSched_exec p N a hp pcs (h0 a (List.mem_cons_self a as))
    have hanotin : a ∉ as := (List.nodup_cons.mp hnd).1
    have h0' : ∀ a' ∈ as, ∀ b, b < gridCols p →
        pcs1 (rk p a' b) = nLen p (rk p a' b) + sLen p (rk p a' b) := by
      intro a' ha' b hb
      rw [hframe1 (rk p a' b) ?_, h0 a' (List.mem_cons_of_mem a ha') b hb]
      intro b' hb' hx
      have := (rk_inj_full p a' b a b' hb hb' hx).1
      exact hanotin (this ▸ ha')
    obtain ⟨pcs', hexec2, hdone2, hframe2⟩ :=
      ih (fun a' h => hlt a' (List.mem_cons_of_mem a h)) (List.nodup_cons.mp hnd).2
        pcs1 h0'
    refine ⟨pcs', ?_, ?_, ?_⟩
    · rw [List.flatMap_cons, execSched_append, hexec1]
      exact hexec2
    · intro a' ha' b hb
      rcases List.mem_cons.mp ha' with haa | ha'
      · subst haa
        rw [hframe2 (rk p a' b) ?_, hdone1 b hb]
        intro a'' ha'' b'' hb'' hx
        have := (rk_inj_full p a' b a'' b'' hb hb'' hx).1
        exact hanotin (this ▸ ha'')
      · exact hdone2 a' ha' b hb
    · intro x hx
      rw [hframe2 x (fun a' h b hb => hx a' (List.mem_cons_of_mem a h) b hb),
        hframe1 x (fun b hb => hx a (List.mem_cons_self a as) b hb)]

theorem fullSched_exec (p N : ℕ) (hp : 1 ≤ p) :
    ∃ pcsF, execSched p N (fun _ => 0) (fullSched p N) = some pcsF ∧
      ∀ r, r < p → pcsF r = (prog p N r).length := by
  obtain ⟨pcs1, hexec1, hdone1⟩ := nsSched_exec p N hp
  obtain ⟨pcsF, hexec2, hdone2, _⟩ :=
    ewFold p N hp (List.range (gridRows p)) (fun a h => List.mem_range.mp h)
      (List.nodup_range _) pcs1
      (fun a hA b hb =>
        hdone1 (rk p a b) (rk_lt p a b hp (List.mem_range.mp hA) hb))
  refine ⟨pcsF, ?_, ?_⟩
  · rw [fullSched, execSched_append, hexec1]
    exact hexec2
  · intro r hr
    have h := hdone2 (myRow p r) (List.mem_range.mpr (myRow_lt p r hp hr))
      (myCol p r) (myCol_lt p r hp)
    rwa [rk_myRowCol p r] at h

/-! ### Every issued operation is one half of a mirrored pair -/

theorem prog_get_cases (p N r k : ℕ) (o : Op) (h : (prog p N r)[k]? = some o) :
    (0 < myRow p r ∧ k = 0 ∧ o = ⟨r - gridCols p, 0, 1, localCols p N r⟩) ∨
    (myRow p r < gridRows p - 1 ∧ k = nLen p r ∧
      o = ⟨r + gridCols p, 1, 0, localCols p N r⟩) ∨
    (∃ i, 0 < myCol p r ∧ i < localRows p N r ∧ k = nLen p r + sLen p r + i ∧
      o = ⟨r - 1, 2 + i, 2 + localRows p N r + i, 1⟩) ∨
    (∃ i, myCol p r < gridCols p - 1 ∧ i < localRows p N r ∧
      k = nLen p r + sLen p r + wLen p N r + i ∧
      o = ⟨r + 1, 2 + localRows p N r + i, 2 + i, 1⟩) := by
  have hk : k < (prog p N r).length := by
    by_contra hk
    rw [List.getElem?_eq_none (by omega)] at h
    exact Option.noConfusion h
  rw [prog_length] at hk
  have hn1 : nLen p r ≤ 1 := by rw [nLen]; split <;> omega
  have hs1 : sLen p r ≤ 1 := by rw [sLen]; split <;> omega
  rcases Nat.lt_or_ge k (nLen p r) with h1 | h1
  · -- north segment
    left
    have hm0 : 0 < myRow p r := by
      by_contra hm0
      rw [nLen, if_neg hm0] at h1
      omega
    have hk0 : k = 0 := by omega
    subst hk0
    have h' := prog_get_north p N r hm0
    exact ⟨hm0, rfl, Option.some.inj (h.symm.trans h')⟩
  rcases Nat.lt_or_ge k (nLen p r + sLen p r) with h2 | h2
  · -- south segment
    right; left
    have hm0 : myRow p r < gridRows p - 1 := by
      by_contra hm0
      rw [sLen, if_neg hm0] at h2
      omega
    have hk0 : k = nLen p r := by omega
    subst hk0
    have h' := prog_get_south p N r hm0
    exact ⟨hm0, rfl, Option.some.inj (h.symm.trans h')⟩
  rcases Nat.lt_or_ge k (nLen p r + sLen p r + wLen p N r) with h3 | h3
  · -- west segment
    right; right; left
    have hm0 : 0 < myCol p r := by
      by_contra hm0
      rw [wLen, if_neg hm0] at h3
      omega
    have hwL : wLen p N r = localRows p N r := by rw [wLen, if_pos hm0]
    refine ⟨k - (nLen p r + sLen p r), hm0, by omega, by omega, ?_⟩
    have h' := prog_get_west p N r (k - (nLen p r + sLen p r)) hm0 (by omega)
    have he : nLen p r + sLen p r + (k - (nLen p r + sLen p r)) = k := by omega
    rw [he] at h'
    exact Option.some.inj (h.symm.trans h')
  · -- east segment
    right; right; right
    have hm0 : myCol p r < gridCols p - 1 := by
      by_contra hm0
      rw [eLen, if_neg hm0] at hk
      omega
    have heL : eLen p N r = localRows p N r := by rw [eLen, if_pos hm0]
    refine ⟨k - (nLen p r + sLen p r + wLen p N r), hm0, by omega, by omega, ?_⟩
    have h' := prog_get_east p N r (k - (nLen p r + sLen p r + wLen p N r)) hm0 (by omega)
    have he : nLen p r + sLen p r + wLen p N r
        + (k - (nLen p r + sLen p r + wLen p N r)) = k := by omega
    rw [he] at h'
    exact Option.some.inj (h.symm.trans h')

theorem localCols_eq_of_col (p N r v : ℕ) (h : myCol p v = myCol p r) :
    localCols p N v = localCols p N r := by
  rw [localCols, localCols, h]

theorem localRows_eq_of_row (p N r v : ℕ) (h : myRow p v = myRow p r) :
    localRows p N v = localRows p N r := by
  rw [localRows, localRows, h]

theorem prog_pairing (p N : ℕ) (hp : 1 ≤ p) (r : ℕ) (hr : r < p) (k : ℕ) (o : Op)
    (h : (prog p N r)[k]? = some o) :
    o.peer < p ∧ o.peer ≠ r ∧
      ∃ (k' : ℕ) (o' : Op), (prog p N o.peer)[k']? = some o' ∧ Mirrors r o.peer o o' := by
  have hgc : 1 ≤ gridCols p := gridCols_pos p hp
  have hrowlt : myRow p r < gridRows p := myRow_lt p r hp hr
  have hcollt : myCol p r < gridCols p := myCol_lt p r hp
  have hdec : rk p (myRow p r) (myCol p r) = r := rk_myRowCol p r
  have hdec' : myRow p r * gridCols p + myCol p r = r := hdec
  rcases prog_get_cases p N r k o h with
    ⟨hm0, _, ho⟩ | ⟨hm0, _, ho⟩ | ⟨i, hm0, hi, _, ho⟩ | ⟨i, hm0, hi, _, ho⟩
  · -- north op; the peer's south op mirrors it
    subst ho
    have hA : gridCols p ≤ myRow p r * gridCols p := Nat.le_mul_of_pos_left _ hm0
    have hv : r - gridCols p = rk p (myRow p r - 1) (myCol p r) := by
      rw [rk, Nat.sub_mul, one_mul]
      omega
    have hvrow : myRow p (r - gridCols p) = myRow p r - 1 := by
      rw [hv]; exact myRow_rk p _ _ hcollt
    have hvcol : myCol p (r - gridCols p) = myCol p r := by
      rw [hv]; exact myCol_rk p _ _ hcollt
    have hvs : myRow p (r - gridCols p) < gridRows p - 1 := by omega
    have hback : r - gridCols p + gridCols p = r := by omega
    have hmir : Mirrors r (r - gridCols p)
        ⟨r - gridCols p, 0, 1, localCols p N r⟩
        ⟨r - gridCols p + gridCols p, 1, 0, localCols p N (r - gridCols p)⟩ :=
      ⟨rfl, hback, rfl, rfl, (localCols_eq_of_col p N r _ hvcol).symm⟩
    have hplt : r - gridCols p < p := by omega
    have hpne : r - gridCols p ≠ r := by omega
    exact ⟨hplt, hpne, nLen p (r - gridCols p), _,
      prog_get_south p N (r - gridCols p) hvs, hmir⟩
  · -- south op; the peer's north op mirrors it
    subst ho
    have hv : r + gridCols p = rk p (myRow p r + 1) (myCol p r) := by
      rw [rk_succ_row, hdec]
    have hvrow : myRow p (r + gridCols p) = myRow p r + 1 := by
      rw [hv]; exact myRow_rk p _ _ hcollt
    have hvcol : myCol p (r + gridCols p) = myCol p r := by
      rw [hv]; exact myCol_rk p _ _ hcollt
    have hvlt : r + gridCols p < p := by
      rw [hv]; exact rk_lt p _ _ hp (by omega) hcollt
    have hback : r + gridCols p - gridCols p = r := by omega
    have hmir : Mirrors r (r + gridCols p)
        ⟨r + gridCols p, 1, 0, localCols p N r⟩
        ⟨r + gridCols p - gridCols p, 0, 1, localCols p N (r + gridCols p)⟩ :=
      ⟨rfl, hback, rfl, rfl, (localCols_eq_of_col p N r _ hvcol).symm⟩
    have hpne : r + gridCols p ≠ r := by omega
    exact ⟨hvlt, hpne, 0, _,
      prog_get_north p N (r + gridCols p) (by omega), hmir⟩
  · -- west op i; the peer's east op i mirrors it
    subst ho
    have hr1 : 1 ≤ r := by omega
    have hv : r - 1 = rk p (myRow p r) (myCol p r - 1) := by
      rw [rk]
      omega
    have hvrow : myRow p (r - 1) = myRow p r := by
      rw [hv]; exact myRow_rk p _ _ (by omega)
    have hvcol : myCol p (r - 1) = myCol p r - 1 := by
      rw [hv]; exact myCol_rk p _ _ (by omega)
    have hvrows : localRows p N (r - 1) = localRows p N r :=
      localRows_eq_of_row p N r _ hvrow
    have hback : r - 1 + 1 = r := by omega
    have htag : (2 : ℕ) + localRows p N r + i = 2 + localRows p N (r - 1) + i := by
      omega
    have hmir : Mirrors r (r - 1)
        ⟨r - 1, 2 + i, 2 + localRows p N r + i, 1⟩
        ⟨r - 1 + 1, 2 + localRows p N (r - 1) + i, 2 + i, 1⟩ :=
      ⟨rfl, hback, rfl, htag, rfl⟩
    have hplt : r - 1 < p := by omega
    have hpne : r - 1 ≠ r := by omega
    exact ⟨hplt, hpne,
      nLen p (r - 1) + sLen p (r - 1) + wLen p N (r - 1) + i, _,
      prog_get_east p N (r - 1) i (by omega) (by omega), hmir⟩
  · -- east op i; the peer's west op i mirrors it
    subst ho
    have hv : r + 1 = rk p (myRow p r) (myCol p r + 1) := by
      rw [rk]
      omega
    have hvrow : myRow p (r + 1) = myRow p r := by
      rw [hv]; exact myRow_rk p _ _ (by omega)
    have hvcol : myCol p (r + 1) = myCol p r + 1 := by
      rw [hv]; exact myCol_rk p _ _ (by omega)
    have hvlt : r + 1 < p := by
      rw [hv]; exact rk_lt p _ _ hp hrowlt (by omega)
    have hvrows : localRows p N (r + 1) = localRows p N r :=
      localRows_eq_of_row p N r _ hvrow
    have hback : r + 1 - 1 = r := by omega
    have htag : (2 : ℕ) + localRows p N r + i = 2 + localRows p N (r + 1) + i := by
      omega
    have hmir : Mirrors r (r + 1)
        ⟨r + 1, 2 + localRows p N r + i, 2 + i, 1⟩
        ⟨r + 1 - 1, 2 + i, 2 + localRows p N (r + 1) + i, 1⟩ :=
      ⟨rfl, hback, htag, rfl, rfl⟩
    have hpne : r + 1 ≠ r := by omega
    exact ⟨hvlt, hpne, nLen p (r + 1) + sLen p (r + 1) + i, _,
      prog_get_west p N (r + 1) i (by omega) (by omega), hmir⟩

/-- C10: in `exchange_halo_blocking`, every `MPI_Sendrecv` a worker
issues is one half of a mirrored pair — its peer is a real worker of the
run, distinct from the issuer, whose own exchange contains the
complementary operation of that same paired exchange (peers exchanged,
each side's send tag the other's receive tag, equal counts) — so no
worker ever issues a blocking send whose peer is not simultaneously ready
to receive within the same paired operation; moreover, when all workers
participate there is a synchronous rendezvous execution of the protocol
(`fullSched`) under which every step is such a mutually mirrored pair and
every worker runs its exchange to completion: the exchange completes
without deadlock. -/
theorem halo_exchange_deadlock_free (p N : ℕ) (hp : 1 ≤ p) :
    (∀ r < p, ∀ (k : ℕ) (o : Op), (prog p N r)[k]? = some o →
      o.peer < p ∧ o.peer ≠ r ∧
        ∃ (k' : ℕ) (o' : Op), (prog p N o.peer)[k']? = some o' ∧ Mirrors r o.peer o o') ∧
    ∃ pcsF, execSched p N (fun _ => 0) (fullSched p N) = some pcsF ∧
      ∀ r < p, pcsF r = (prog p N r).length := by
  refine ⟨fun r hr k o h => prog_pairing p N hp r hr k o h, ?_⟩
  obtain ⟨pcsF, hexec, hdone⟩ := fullSched_exec p N hp
  exact ⟨pcsF, hexec, fun r hr => hdone r hr⟩

/-- Witness for C10 at `p = 6` (a `2 × 3` grid), `N = 6`. -/
theorem halo_exchange_deadlock_free_witness :
    1 ≤ 6 ∧
      ((∀ r < 6, ∀ (k : ℕ) (o : Op), (prog 6 6 r)[k]? = some o →
        o.peer < 6 ∧ o.peer ≠ r ∧
          ∃ (k' : ℕ) (o' : Op), (prog 6 6 o.peer)[k']? = some o' ∧ Mirrors r o.peer o o') ∧
      ∃ pcsF, execSched 6 6 (fun _ => 0) (fullSched 6 6) = some pcsF ∧
        ∀ r < 6, pcsF r = (prog 6 6 r).length) :=
  ⟨by decide, halo_exchange_deadlock_free 6 6 (by decide)⟩

end SobelMPI

